import Mathlib

/-!
Shallow embedding of the onboarding step/state engine
(`OnboardingProvider`, middle revision of `src/unnamed/part_001`,
together with the data model of `src/types/index.ts`).

JavaScript conventions are made explicit:
* array indices are JS numbers, embedded as `Int`; out-of-range access
  yields `undefined`, embedded as `none`;
* dereferencing `undefined` (a thrown `TypeError`) makes an operation
  return `none` at the top level;
* string truthiness (`""` is falsy) is `jsTruthy`;
* `a || b` on optional strings is `jsOr`;
* `x ?? y` on `Record<number, number|null>` lookups collapses a stored
  `null` and a missing key, which `progGet` reflects.
-/

structure OnboardingSubStep where
  title : String
  description : String
  attr : String
  navigate : Option String
  click : Bool
deriving DecidableEq

structure OnboardingStep where
  title : String
  description : String
  attr : String
  urlMatch : String
  navigate : Option String
  subSteps : Option (List OnboardingSubStep)
  click : Bool
deriving DecidableEq

structure OnboardingMetadata where
  name : String
  inOrder : Option Bool
  simulateClicksOnNavigate : Bool
deriving DecidableEq

/-- Config surface consumed by the engine. `onOnboardingComplete`
records whether a completion callback was supplied. -/
structure OnboardingConfig where
  metadata : OnboardingMetadata
  steps : List OnboardingStep
  onOnboardingComplete : Bool
deriving DecidableEq

structure OnboardingState where
  currentStepIndex : Int
  currentSubStepIndex : Option Int
  isActive : Bool
  completedSteps : List Int
  subStepProgress : List (Int × Option Int)
deriving DecidableEq

/-- Zero-value default state built by `getInitialState` when nothing is persisted. -/
def initialState : OnboardingState :=
  { currentStepIndex := 0, currentSubStepIndex := none, isActive := true,
    completedSteps := [], subStepProgress := [] }

/-- JS array access `l[i]`: `undefined` for a negative or too-large index. -/
def jsGet {α : Type} (l : List α) (i : Int) : Option α :=
  if 0 ≤ i then l.get? i.toNat else none

/-- JS string truthiness of a `string | undefined` value. -/
def jsTruthy : Option String → Bool
  | some s => s ≠ ""
  | none => false

/-- JS `a || b` on `string | undefined` values. -/
def jsOr (a b : Option String) : Option String :=
  if jsTruthy a then a else b

/-- Lookup in `subStepProgress` followed by the `?? …` coalescing the code
always applies: a stored `null` and an absent key are indistinguishable. -/
def progGet (m : List (Int × Option Int)) (k : Int) : Option Int :=
  match m.lookup k with
  | some v => v
  | none => none

/-- Object-spread update `{ ...m, [k]: v }`, observed through `progGet`. -/
def progSet (m : List (Int × Option Int)) (k : Int) (v : Option Int) :
    List (Int × Option Int) :=
  (k, v) :: m

/-! ## URL Matcher (`isMatch`, lines 420-433 of part_001) -/

/-- One character of the compiled wildcard pattern: the code escapes every
regex-special character and then turns each `*` into `.*`, so the compiled
regex is a sequence of literal characters and wildcards. -/
inductive GPart where
  | lit (c : Char)
  | star
deriving DecidableEq

/-- The pattern compiled from `urlMatch`: each `*` becomes a wildcard,
every other character is literal (it was regex-escaped first). -/
def compileGlob (u : String) : List GPart :=
  u.toList.map (fun c => if c = '*' then GPart.star else GPart.lit c)

/-- Anchored matching of the compiled pattern against the whole path. -/
def globMatch : List GPart → List Char → Bool
  | [], s => s.isEmpty
  | GPart.lit _ :: _, [] => false
  | GPart.lit c :: ps, d :: s => c == d && globMatch ps s
  | GPart.star :: ps, s => s.tails.any (fun t => globMatch ps t)

/-- `isMatch(step, path)`: guard `!step?.urlMatch || !path`, then wildcard
or exact comparison. -/
def isMatch (step : OnboardingStep) (path : String) : Bool :=
  if step.urlMatch = "" ∨ path = "" then false
  else if step.urlMatch.toList.contains '*' then
    globMatch (compileGlob step.urlMatch) path.toList
  else path == step.urlMatch

/-! ## Progress Store transition operations -/

/-- The element `currentActiveStep` acts on: the current sub-step when
inside one, otherwise the step itself. -/
structure ActiveElem where
  attr : String
  navigate : Option String
  click : Bool
deriving DecidableEq

def OnboardingStep.asActive (st : OnboardingStep) : ActiveElem :=
  ⟨st.attr, st.navigate, st.click⟩

def OnboardingSubStep.asActive (ss : OnboardingSubStep) : ActiveElem :=
  ⟨ss.attr, ss.navigate, ss.click⟩

/-- `currentSubStepIndex !== null && stepObj.subSteps ?
stepObj.subSteps[currentSubStepIndex] : stepObj`; `none` when the sub-step
lookup lands on `undefined` (its fields are dereferenced right after). -/
def activeElem (stepObj : OnboardingStep) (s : OnboardingState) : Option ActiveElem :=
  match s.currentSubStepIndex, stepObj.subSteps with
  | some k, some subs => (jsGet subs k).map OnboardingSubStep.asActive
  | _, _ => some stepObj.asActive

/-- `stepObj.subSteps && (currentSubStepIndex === null ||
currentSubStepIndex < stepObj.subSteps.length - 1)`. -/
def subAdvanceCond (stepObj : OnboardingStep) (s : OnboardingState) : Bool :=
  match stepObj.subSteps with
  | none => false
  | some subs => s.currentSubStepIndex.elim true (fun k => decide (k < (subs.length : Int) - 1))

inductive TransKind where
  | subAdvance (k : Int)
  | cross
  | terminal
  | stay
deriving DecidableEq

/-- Result of one transition operation: the next state, the at most one
navigation actually requested, how many times the completion callback was
invoked, and which branch ran. -/
structure StepResult where
  state : OnboardingState
  nav : Option String
  completions : Nat
  kind : TransKind
deriving DecidableEq

/-- `if (navTo) handleNavigation(navTo)` plus `if (!link) return`. -/
def emitNav (nv : Option String) : Option String :=
  if jsTruthy nv then nv else none

/-- `completedSteps.includes(i) ? completedSteps : [...completedSteps, i]`. -/
def addCompleted (completed : List Int) (i : Int) : List Int :=
  if completed.contains i then completed else completed ++ [i]

/-- Sub-step-advance branch of `nextStep` (lines 645-665). -/
def nextStepSub (s : OnboardingState) (stepObj : OnboardingStep)
    (active : ActiveElem) (subs : List OnboardingSubStep) : Option StepResult :=
  let nextSubIndex : Int := match s.currentSubStepIndex with | none => 0 | some k => k + 1
  let navTo? : Option (Option String) :=
    if jsTruthy active.navigate then some active.navigate
    else match jsGet subs nextSubIndex with
         | some nss => some nss.navigate
         | none => none
  match navTo? with
  | none => none
  | some nv0 =>
    let nv := if jsTruthy nv0 = false ∧ s.currentSubStepIndex = none then stepObj.navigate else nv0
    some ⟨{ s with
              currentSubStepIndex := some nextSubIndex
              subStepProgress := progSet s.subStepProgress s.currentStepIndex (some nextSubIndex) },
          emitNav nv, 0, TransKind.subAdvance nextSubIndex⟩

/-- Step-completion part of `nextStep` (lines 666-707): cross to the next
step, or the terminal transition on the last one. -/
def completeStep (cfg : OnboardingConfig) (s : OnboardingState)
    (stepObj : OnboardingStep) (active : ActiveElem) : Option StepResult :=
  if s.currentStepIndex < (cfg.steps.length : Int) - 1 then
    let nextIndex := s.currentStepIndex + 1
    let nextStepObj? := jsGet cfg.steps nextIndex
    let targetSubStepIndex := progGet s.subStepProgress nextIndex
    let targetSubStep? : Option (Option OnboardingSubStep) :=
      match targetSubStepIndex with
      | some t =>
        match nextStepObj? with
        | none => none
        | some nso =>
          match nso.subSteps with
          | some subs2 => some (jsGet subs2 t)
          | none => some none
      | none => some none
    match targetSubStep? with
    | none => none
    | some tss =>
      let navTo? : Option (Option String) :=
        if jsTruthy active.navigate then some active.navigate
        else match nextStepObj? with
             | none => none
             | some nso =>
               some (jsOr nso.navigate (match tss with | some ss2 => ss2.navigate | none => none))
      match navTo? with
      | none => none
      | some nv =>
        some ⟨{ s with
                  currentStepIndex := nextIndex
                  currentSubStepIndex := targetSubStepIndex
                  completedSteps := addCompleted s.completedSteps s.currentStepIndex
                  subStepProgress := progSet s.subStepProgress s.currentStepIndex s.currentSubStepIndex },
              emitNav nv, 0, TransKind.cross⟩
  else
    some ⟨{ s with
              isActive := false
              completedSteps := addCompleted s.completedSteps s.currentStepIndex
              subStepProgress := progSet s.subStepProgress s.currentStepIndex s.currentSubStepIndex },
          emitNav (jsOr active.navigate stepObj.navigate),
          (if cfg.onOnboardingComplete then 1 else 0), TransKind.terminal⟩

/-- `nextStep` (lines 621-714). -/
def nextStep (cfg : OnboardingConfig) (s : OnboardingState) : Option StepResult :=
  match jsGet cfg.steps s.currentStepIndex with
  | none => some ⟨s, none, 0, TransKind.stay⟩
  | some stepObj =>
    match activeElem stepObj s with
    | none => none
    | some active =>
      match stepObj.subSteps with
      | some subs =>
        if s.currentSubStepIndex.elim true (fun k => decide (k < (subs.length : Int) - 1)) then
          nextStepSub s stepObj active subs
        else completeStep cfg s stepObj active
      | none => completeStep cfg s stepObj active

/-- `prevStep` branch decrementing within sub-steps (lines 723-735). -/
def prevStepSub (cfg : OnboardingConfig) (s : OnboardingState) (k : Int) : Option StepResult :=
  match jsGet cfg.steps s.currentStepIndex with
  | none => none
  | some st =>
    match st.subSteps with
    | none => none
    | some subs =>
      match jsGet subs (k - 1) with
      | none => none
      | some nss =>
        some ⟨{ s with
                  currentSubStepIndex := some (k - 1)
                  subStepProgress := progSet s.subStepProgress s.currentStepIndex (some (k - 1)) },
              emitNav nss.navigate, 0, TransKind.stay⟩

/-- `prevStep` branch exiting sub-step 0 to the parent step (lines 736-747). -/
def prevStepExit (cfg : OnboardingConfig) (s : OnboardingState) : Option StepResult :=
  match jsGet cfg.steps s.currentStepIndex with
  | none => none
  | some st =>
    some ⟨{ s with
              currentSubStepIndex := none
              subStepProgress := progSet s.subStepProgress s.currentStepIndex none },
          emitNav st.navigate, 0, TransKind.stay⟩

/-- `prev.subStepProgress[prevIndex] ?? (prevStepObj.subSteps ?
prevStepObj.subSteps.length - 1 : null)`: the resume sub-step restored
when retreating into the previous step. -/
def prevResume (s : OnboardingState) (pso : OnboardingStep) : Option Int :=
  match progGet s.subStepProgress (s.currentStepIndex - 1) with
  | some v => some v
  | none =>
    match pso.subSteps with
    | some subs => some ((subs.length : Int) - 1)
    | none => none

/-- `prevStep` branch moving to the previous step (lines 748-770). -/
def prevStepCross (cfg : OnboardingConfig) (s : OnboardingState) : Option StepResult :=
  let prevIndex := s.currentStepIndex - 1
  match jsGet cfg.steps prevIndex with
  | none => none
  | some pso =>
    let prevSubStepIndex : Option Int := prevResume s pso
    let prevSubStep : Option OnboardingSubStep :=
      match prevSubStepIndex, pso.subSteps with
      | some t, some subs => jsGet subs t
      | _, _ => none
    let nv := jsOr pso.navigate (match prevSubStep with | some ss => ss.navigate | none => none)
    some ⟨{ s with
              currentStepIndex := prevIndex
              currentSubStepIndex := prevSubStepIndex
              isActive := true
              subStepProgress := progSet s.subStepProgress prevIndex prevSubStepIndex },
          emitNav nv, 0, TransKind.stay⟩

/-- `prevStep` (lines 716-779). -/
def prevStep (cfg : OnboardingConfig) (s : OnboardingState) : Option StepResult :=
  match s.currentSubStepIndex with
  | some k =>
    if 0 < k then prevStepSub cfg s k
    else if 0 < s.currentStepIndex ∧ k = 0 then prevStepExit cfg s
    else if 0 < s.currentStepIndex then prevStepCross cfg s
    else some ⟨s, none, 0, TransKind.stay⟩
  | none =>
    if 0 < s.currentStepIndex then prevStepCross cfg s
    else some ⟨s, none, 0, TransKind.stay⟩

/-- `finish` (lines 781-784): deactivate and invoke the callback. -/
def finish (cfg : OnboardingConfig) (s : OnboardingState) : StepResult :=
  ⟨{ s with isActive := false }, none,
   (if cfg.onOnboardingComplete then 1 else 0), TransKind.stay⟩

/-- `goToStep` (lines 786-816). `none` models the `TypeError` thrown when
`steps[stepIndex]` is `undefined` and then dereferenced. -/
def goToStep (cfg : OnboardingConfig) (s : OnboardingState)
    (stepIndex : Int) (subStepIndex : Option Int) : Option StepResult :=
  let nextStepObj? := jsGet cfg.steps stepIndex
  let targetSubStep? : Option (Option OnboardingSubStep) :=
    match subStepIndex with
    | some t =>
      match nextStepObj? with
      | none => none
      | some nso =>
        match nso.subSteps with
        | some subs => some (jsGet subs t)
        | none => some none
    | none => some none
  match targetSubStep? with
  | none => none
  | some tss =>
    match nextStepObj? with
    | none => none
    | some nso =>
      let nv := jsOr nso.navigate (match tss with | some ss => ss.navigate | none => none)
      some ⟨{ s with
                currentStepIndex := stepIndex
                currentSubStepIndex := subStepIndex
                isActive := true
                subStepProgress := progSet s.subStepProgress stepIndex subStepIndex },
            emitNav nv, 0, TransKind.stay⟩

/-! ## Reconciliation effect (lines 483-533) -/

/-- `findIndex((step, index) => isMatch(step, currentPath) &&
!completedSteps.includes(index))`. -/
def findFreeAux (path : String) (completed : List Int) :
    List OnboardingStep → Int → Option Int
  | [], _ => none
  | st :: rest, i =>
    if isMatch st path ∧ ¬ completed.contains i then some i
    else findFreeAux path completed rest (i + 1)

/-- `findIndex((_, i) => !completedSteps.includes(i))`, over `fuel` indices
starting at `start`. -/
def findUnfinishedAux (completed : List Int) : Nat → Nat → Option Int
  | 0, _ => none
  | n + 1, start =>
    if completed.contains (start : Int) then findUnfinishedAux completed n (start + 1)
    else some (start : Int)

/-- The reconciliation `setState` updater plus the navigation it may
request (strict-order branch only). -/
def reconcile (cfg : OnboardingConfig) (path : String) (s : OnboardingState) :
    OnboardingState × Option String :=
  if s.isActive = false then (s, none)
  else if cfg.metadata.inOrder = some false then
    match findFreeAux path s.completedSteps cfg.steps 0 with
    | some m =>
      if m ≠ s.currentStepIndex then
        ({ s with currentStepIndex := m, currentSubStepIndex := progGet s.subStepProgress m }, none)
      else (s, none)
    | none => (s, none)
  else
    match findUnfinishedAux s.completedSteps cfg.steps.length 0 with
    | some f =>
      let s' := if f ≠ s.currentStepIndex then
          { s with currentStepIndex := f, currentSubStepIndex := progGet s.subStepProgress f }
        else s
      let nav := match jsGet cfg.steps f with
        | some st =>
          if isMatch st path = false then
            match st.navigate with
            | some u => if u ≠ "" ∧ path ≠ u then some u else none
            | none => none
          else none
        | none => none
      (s', nav)
    | none => (s, none)

/-! ## Click Replay Scheduler (`simulateClicks`, lines 435-481) -/

/-- `collectStepClicks(step, upToSubStep = -1)` (lines 440-455): `-1` is
the "all sub-steps" sentinel supplied by the default parameter. `none`
models the `TypeError` on `step.subSteps[i].click` when the loop bound
exceeds the sub-step count. -/
def collectStepClicks (st : OnboardingStep) (upTo : Int) : Option (List String) :=
  let own := if st.click then [st.attr] else []
  match st.subSteps with
  | none => some own
  | some subs =>
    let limit : Int := if upTo = -1 then (subs.length : Int) else upTo
    if limit ≤ (subs.length : Int) then
      some (own ++ ((subs.take limit.toNat).filter (fun ss => ss.click)).map (fun ss => ss.attr))
    else none

/-- What iteration `i` of the `for (let i = 0; i <= stepIndex; i++)` loop
of `simulateClicks` contributes to `actions`. -/
def simStepCollect (cfg : OnboardingConfig) (path : String)
    (stepIndex : Int) (subStepIndex : Option Int) (n : Nat) : Option (List String) :=
  let i : Int := (n : Int)
  match jsGet cfg.steps i with
  | none => some []
  | some st =>
    if isMatch st path then
      if i < stepIndex then collectStepClicks st (-1)
      else
        match subStepIndex with
        | some t => collectStepClicks st t
        | none => some []
    else some []

/-- The ordered `actions` list built by `simulateClicks(stepIndex,
subStepIndex)`; the chained `performClick` callbacks then attempt these
activations sequentially in exactly this order. -/
def simulateClicksActions (cfg : OnboardingConfig) (path : String)
    (stepIndex : Int) (subStepIndex : Option Int) : Option (List String) :=
  (List.range (stepIndex + 1).toNat).foldlM
    (fun acc n => (simStepCollect cfg path stepIndex subStepIndex n).map (fun l => acc ++ l)) []

/-- Modelled from the claim's words, for comparison with
`simulateClicksActions`: the activations collected for one step are its own
(if flagged) followed by those of its flagged sub-steps with index below
the bound (all of them when the bound is `none`). -/
def specCollectStep (st : OnboardingStep) (bound : Option Int) : List String :=
  (if st.click then [st.attr] else []) ++
    match st.subSteps with
    | none => []
    | some subs =>
      ((subs.take (match bound with | none => subs.length | some t => t.toNat)).filter
        (fun ss => ss.click)).map (fun ss => ss.attr)

/-- Modelled from the claim's words: what step `n` of the walk
contributes — nothing unless the step exists and matches the path;
everything up to the bound when it does. -/
def specStepCollect (cfg : OnboardingConfig) (path : String)
    (stepIndex : Int) (subStepIndex : Option Int) (n : Nat) : List String :=
  let i : Int := (n : Int)
  match jsGet cfg.steps i with
  | none => []
  | some st =>
    if isMatch st path then
      if i < stepIndex then specCollectStep st none
      else
        match subStepIndex with
        | some t => specCollectStep st (some t)
        | none => []
    else []

/-- Modelled from the claim's words: walk the steps up to the target in
index order, and for each one matching the path collect its contribution. -/
def specCollect (cfg : OnboardingConfig) (path : String)
    (stepIndex : Int) (subStepIndex : Option Int) : List String :=
  (List.range (stepIndex + 1).toNat).foldl
    (fun acc n => acc ++ specStepCollect cfg path stepIndex subStepIndex n) []

/-! ## Click simulation effect (lines 535-573) and the
`lastSimulatedKey` reset effect (lines 364-369) -/

/-- The three refs the two effects read and write. -/
structure SimRefs where
  lastSimulatedKey : String
  lastPathForSimulation : String
  wasInternalAction : Bool
deriving DecidableEq

/-- One firing of the effects: the observed path and state, whether the
component is mounted, and whether an internal transition operation
(`nextStep`/`prevStep`/`goToStep`, each of which sets
`wasInternalAction.current = true`) ran since the previous firing. -/
structure EffInput where
  path : String
  stepIdx : Int
  subIdx : Option Int
  isActive : Bool
  mounted : Bool
  internalOp : Bool
deriving DecidableEq

/-- `` `${currentPath}-${currentStepIndex}-${currentSubStepIndex}` ``. -/
def simKey (inp : EffInput) : String :=
  inp.path ++ "-" ++ toString inp.stepIdx ++ "-" ++
    (match inp.subIdx with | some n => toString n | none => "null")

/-- `wasInternalAction.current = true`, performed by
`nextStep`/`prevStep`/`goToStep` before the commit they cause. -/
def setInternalFlag (r : SimRefs) (inp : EffInput) : SimRefs :=
  if inp.internalOp then { r with wasInternalAction := true } else r

/-- The reset effect (lines 364-369), declared before the
click-simulation effect; its guard makes running the body on every commit
equivalent to running it only when `currentPath` changed. -/
def resetEffect (r : SimRefs) (inp : EffInput) : SimRefs :=
  if inp.path ≠ r.lastPathForSimulation then
    { r with lastPathForSimulation := inp.path, lastSimulatedKey := "" }
  else r

/-- The click-simulation effect body (lines 536-564). -/
def clickEffect (cfg : OnboardingConfig) (r : SimRefs) (inp : EffInput) : SimRefs × Bool :=
  if inp.isActive = false ∨ inp.mounted = false then (r, false)
  else if r.lastSimulatedKey = simKey inp then (r, false)
  else
    let internal := r.wasInternalAction
    let r2 := { r with wasInternalAction := false }
    if internal = true ∧ inp.path = r2.lastPathForSimulation then
      ({ r2 with lastSimulatedKey := simKey inp }, false)
    else
      match jsGet cfg.steps inp.stepIdx with
      | some st =>
        if isMatch st inp.path ∧ cfg.metadata.simulateClicksOnNavigate = true then
          if r2.lastSimulatedKey ≠ simKey inp then
            ({ r2 with lastSimulatedKey := simKey inp, lastPathForSimulation := inp.path }, true)
          else (r2, false)
        else (r2, false)
      | none => (r2, false)

/-- One commit: flag, reset effect, then click-simulation effect.
Returns the new refs and whether a replay was started. -/
def fireOnce (cfg : OnboardingConfig) (r : SimRefs) (inp : EffInput) : SimRefs × Bool :=
  clickEffect cfg (resetEffect (setInternalFlag r inp) inp) inp

/-! ## Operation traces with a ghost traversal log -/

/-- One user-visible operation on the Progress Store. -/
inductive Op where
  | next
  | prev
  | fin
  | goTo (stepIndex : Int) (subStepIndex : Option Int)
  | recon (path : String)
deriving DecidableEq

/-- Ghost log of forward sub-step traversals: `nextStep` entering sub-step
`k` of the current step records `(currentStepIndex, k)`. -/
def traverseLog (s : OnboardingState) (r : StepResult) (log : List (Int × Int)) :
    List (Int × Int) :=
  match r.kind with
  | TransKind.subAdvance k => (s.currentStepIndex, k) :: log
  | _ => log

def applyOp (cfg : OnboardingConfig) (g : OnboardingState × List (Int × Int)) :
    Op → Option (OnboardingState × List (Int × Int))
  | Op.next => (nextStep cfg g.1).map (fun r => (r.state, traverseLog g.1 r g.2))
  | Op.prev => (prevStep cfg g.1).map (fun r => (r.state, g.2))
  | Op.fin => some ((finish cfg g.1).state, g.2)
  | Op.goTo i j => (goToStep cfg g.1 i j).map (fun r => (r.state, g.2))
  | Op.recon path => some ((reconcile cfg path g.1).1, g.2)

def runOps (cfg : OnboardingConfig) (g : OnboardingState × List (Int × Int))
    (ops : List Op) : Option (OnboardingState × List (Int × Int)) :=
  ops.foldlM (applyOp cfg) g

/-- States (with their traversal log) reachable from the initial state
without `goToStep` and without free-order reconciliation. -/
inductive ReachableNF (cfg : OnboardingConfig) : OnboardingState → List (Int × Int) → Prop
  | init : ReachableNF cfg initialState []
  | next {s : OnboardingState} {log : List (Int × Int)} {r : StepResult} :
      ReachableNF cfg s log → nextStep cfg s = some r →
      ReachableNF cfg r.state (traverseLog s r log)
  | prev {s : OnboardingState} {log : List (Int × Int)} {r : StepResult} :
      ReachableNF cfg s log → prevStep cfg s = some r →
      ReachableNF cfg r.state log
  | fin {s : OnboardingState} {log : List (Int × Int)} :
      ReachableNF cfg s log → ReachableNF cfg (finish cfg s).state log
  | recon {s : OnboardingState} {log : List (Int × Int)} {path : String} :
      cfg.metadata.inOrder ≠ some false → ReachableNF cfg s log →
      ReachableNF cfg (reconcile cfg path s).1 log

/-! ## Advance/retreat chains for the round-trip law -/

/-- `n` applications of `prevStep`. -/
def prevN (cfg : OnboardingConfig) : Nat → OnboardingState → Option OnboardingState
  | 0, s => some s
  | n + 1, s =>
    match prevStep cfg s with
    | some r => prevN cfg n r.state
    | none => none

/-- Side conditions on one advance of the round-trip law: entering the
first sub-step does not happen at step 0 (where `prevStep`'s
exit-to-parent branch is unreachable), and a step crossed into has no
recorded resume sub-step. -/
def okAdvStep (t : OnboardingState) (r : StepResult) : Prop :=
  (r.kind = TransKind.subAdvance 0 → 0 < t.currentStepIndex) ∧
  (r.kind = TransKind.cross → progGet t.subStepProgress (t.currentStepIndex + 1) = none)

/-- `Adv cfg s n t`: `n` successful `nextStep` calls from `s` reach `t`,
each one actually advancing (never the terminal transition, never the
missing-step no-op) and satisfying `okAdvStep`. -/
inductive Adv (cfg : OnboardingConfig) : OnboardingState → Nat → OnboardingState → Prop
  | refl (s : OnboardingState) : Adv cfg s 0 s
  | step {s : OnboardingState} {n : Nat} {t : OnboardingState} {r : StepResult} :
      Adv cfg s n t → nextStep cfg t = some r →
      ((∃ k, r.kind = TransKind.subAdvance k) ∨ r.kind = TransKind.cross) →
      okAdvStep t r → Adv cfg s (n + 1) r.state

/-- Positions agree (the fields the round-trip law speaks about). -/
def posEq (a b : OnboardingState) : Prop :=
  a.currentStepIndex = b.currentStepIndex ∧ a.currentSubStepIndex = b.currentSubStepIndex

/-- Simulation relation between a retreat-phase state and the
corresponding advance-phase state: same position, and the same resume
entries strictly below the current step. -/
def SimR (u t : OnboardingState) : Prop :=
  u.currentStepIndex = t.currentStepIndex ∧
  u.currentSubStepIndex = t.currentSubStepIndex ∧
  ∀ k : Int, k < u.currentStepIndex → progGet u.subStepProgress k = progGet t.subStepProgress k

/-! ## Specification-level predicates -/

/-- Declarative semantics of the compiled wildcard pattern: a literal part
consumes exactly its character, a wildcard consumes any characters; the
whole path must be consumed (anchoring at both ends). -/
inductive GlobSem : List GPart → List Char → Prop
  | nil : GlobSem [] []
  | lit (c : Char) {ps : List GPart} {s : List Char} :
      GlobSem ps s → GlobSem (GPart.lit c :: ps) (c :: s)
  | star (w : List Char) {ps : List GPart} {s : List Char} :
      GlobSem ps s → GlobSem (GPart.star :: ps) (w ++ s)

/-- The invariant behind C1: completed steps had all their sub-steps
traversed forward, the current sub-step position and every resume entry
are backed by logged traversals, and every step below the current one is
completed. -/
def C1Inv (cfg : OnboardingConfig) (s : OnboardingState) (log : List (Int × Int)) : Prop :=
  s.completedSteps.Nodup ∧
  (∀ i ∈ s.completedSteps, ∀ st, jsGet cfg.steps i = some st →
     ∀ subs, st.subSteps = some subs →
     ∀ m : Int, 0 ≤ m → m < (subs.length : Int) → (i, m) ∈ log) ∧
  (∀ k, s.currentSubStepIndex = some k →
     ∀ m : Int, 0 ≤ m → m ≤ k → (s.currentStepIndex, m) ∈ log) ∧
  (∀ i k, progGet s.subStepProgress i = some k →
     ∀ m : Int, 0 ≤ m → m ≤ k → (i, m) ∈ log) ∧
  (∀ j : Int, 0 ≤ j → j < s.currentStepIndex → j ∈ s.completedSteps)

/-- `m` is the lowest-indexed step not yet completed whose match rule
matches `path`. -/
def FreeTarget (cfg : OnboardingConfig) (path : String) (completed : List Int) (m : Int) : Prop :=
  0 ≤ m ∧ (∃ st, jsGet cfg.steps m = some st ∧ isMatch st path = true) ∧ ¬ m ∈ completed ∧
  ∀ j : Int, 0 ≤ j → j < m → ∀ st, jsGet cfg.steps j = some st →
    isMatch st path = false ∨ j ∈ completed

/-! ## Concrete fixtures for witnesses and counterexamples -/

def mdDefault : OnboardingMetadata :=
  { name := "flow", inOrder := none, simulateClicksOnNavigate := false }

def ssA : OnboardingSubStep :=
  { title := "A", description := "", attr := "a", navigate := none, click := false }

def ssB : OnboardingSubStep :=
  { title := "B", description := "", attr := "b", navigate := none, click := false }

/-- One step with two sub-steps. -/
def stepTwoSubs : OnboardingStep :=
  { title := "S0", description := "", attr := "s0", urlMatch := "/p", navigate := none,
    subSteps := some [ssA, ssB], click := false }

def cfgTwoSubs : OnboardingConfig :=
  { metadata := mdDefault, steps := [stepTwoSubs], onOnboardingComplete := true }

def stepPlain0 : OnboardingStep :=
  { title := "P0", description := "", attr := "p0", urlMatch := "/p0", navigate := none,
    subSteps := none, click := false }

def stepPlain1 : OnboardingStep :=
  { title := "P1", description := "", attr := "p1", urlMatch := "/p1", navigate := none,
    subSteps := none, click := false }

/-- Two plain steps without sub-steps. -/
def cfgTwoPlain : OnboardingConfig :=
  { metadata := mdDefault, steps := [stepPlain0, stepPlain1], onOnboardingComplete := true }

/-- Last step declaring a navigate URL whose only sub-step declares none. -/
def stepEnd : OnboardingStep :=
  { title := "E", description := "", attr := "e", urlMatch := "/e", navigate := some "/end",
    subSteps := some [ssA], click := false }

def cfgEnd : OnboardingConfig :=
  { metadata := mdDefault, steps := [stepEnd], onOnboardingComplete := true }

/-- Positioned inside the first sub-step of step 0. -/
def stateAtSub0 : OnboardingState :=
  { currentStepIndex := 0, currentSubStepIndex := some 0, isActive := true,
    completedSteps := [], subStepProgress := [] }

def ssNavB : OnboardingSubStep :=
  { title := "B", description := "", attr := "b", navigate := some "/b", click := false }

/-- Step and sub-step both declaring navigate URLs. -/
def stepNavA : OnboardingStep :=
  { title := "S", description := "", attr := "s", urlMatch := "/s", navigate := some "/a",
    subSteps := some [ssNavB], click := false }

def cfgNav : OnboardingConfig :=
  { metadata := mdDefault, steps := [stepNavA], onOnboardingComplete := false }

def mdFree : OnboardingMetadata :=
  { name := "flow", inOrder := some false, simulateClicksOnNavigate := false }

def stepX : OnboardingStep :=
  { title := "X", description := "", attr := "x", urlMatch := "/x", navigate := none,
    subSteps := none, click := false }

def stepY : OnboardingStep :=
  { title := "Y", description := "", attr := "y", urlMatch := "/y", navigate := none,
    subSteps := none, click := false }

/-- Free-order config with two URL-distinct steps. -/
def cfgFree : OnboardingConfig :=
  { metadata := mdFree, steps := [stepX, stepY], onOnboardingComplete := false }

def ssC0 : OnboardingSubStep :=
  { title := "C0", description := "", attr := "c0", navigate := none, click := true }

def ssC1 : OnboardingSubStep :=
  { title := "C1", description := "", attr := "c1", navigate := none, click := true }

/-- Step flagged activate-on-click with two flagged sub-steps. -/
def stepClicky : OnboardingStep :=
  { title := "K", description := "", attr := "k", urlMatch := "/k", navigate := none,
    subSteps := some [ssC0, ssC1], click := true }

def cfgClicky : OnboardingConfig :=
  { metadata := { name := "flow", inOrder := none, simulateClicksOnNavigate := true },
    steps := [stepClicky], onOnboardingComplete := false }

def refs0 : SimRefs :=
  { lastSimulatedKey := "", lastPathForSimulation := "/k", wasInternalAction := false }

def inpExt : EffInput :=
  { path := "/k", stepIdx := 0, subIdx := none, isActive := true, mounted := true,
    internalOp := false }

def inpInt : EffInput :=
  { path := "/k", stepIdx := 0, subIdx := some 0, isActive := true, mounted := true,
    internalOp := true }

/-- Wildcard demo step of the spec: rule `/user/*`. -/
def stepWild : OnboardingStep :=
  { title := "W", description := "", attr := "w", urlMatch := "/user/*", navigate := none,
    subSteps := none, click := false }

/-- A single plain step (the single-step scenario of the spec). -/
def cfgOnePlain : OnboardingConfig :=
  { metadata := mdDefault, steps := [stepPlain0], onOnboardingComplete := true }

/-- The result of `nextStep cfgOnePlain initialState`: the terminal
transition of the single-step scenario. -/
def rOnePlain : StepResult :=
  ⟨{ currentStepIndex := 0, currentSubStepIndex := none, isActive := false,
     completedSteps := [0], subStepProgress := [(0, none)] }, none, 1, TransKind.terminal⟩

/-- The result of `nextStep cfgTwoSubs initialState`: entering the first
sub-step of step 0. -/
def rTwoSubs0 : StepResult :=
  ⟨{ currentStepIndex := 0, currentSubStepIndex := some 0, isActive := true,
     completedSteps := [], subStepProgress := [(0, some 0)] }, none, 0,
   TransKind.subAdvance 0⟩

/-- The result of `nextStep cfgTwoPlain initialState`: crossing from step
0 to step 1. -/
def rPlainCross : StepResult :=
  ⟨{ currentStepIndex := 1, currentSubStepIndex := none, isActive := true,
     completedSteps := [0], subStepProgress := [(0, none)] }, none, 0,
   TransKind.cross⟩

/-! # Theorems -/

/-! ## Basic lemmas about the JS helpers -/

theorem progGet_progSet_same (m : List (Int × Option Int)) (k : Int) (v : Option Int) :
    progGet (progSet m k v) k = v := by
  cases v <;> simp [progGet, progSet, List.lookup]

theorem progGet_progSet_ne (m : List (Int × Option Int)) (k : Int) (v : Option Int)
    (k' : Int) (h : k' ≠ k) : progGet (progSet m k v) k' = progGet m k' := by
  simp [progGet, progSet, List.lookup, beq_eq_false_iff_ne.mpr h]

theorem jsGet_some_bounds {α : Type} {l : List α} {i : Int} {a : α}
    (h : jsGet l i = some a) : 0 ≤ i ∧ i < (l.length : Int) := by
  unfold jsGet at h
  split at h
  · next hle =>
    refine ⟨hle, ?_⟩
    rcases List.get?_eq_some.mp h with ⟨hlt, _⟩
    omega
  · exact absurd h (by simp)

theorem jsGet_none_of_oob {α : Type} {l : List α} {i : Int}
    (h : i < 0 ∨ (l.length : Int) ≤ i) : jsGet l i = none := by
  unfold jsGet
  rcases h with h | h
  · rw [if_neg (by omega)]
  · rw [if_pos (by omega), List.get?_eq_none.mpr (by omega)]

/-! ## Wildcard matcher: the executable matcher decides the declarative
semantics -/

theorem globMatch_sound : ∀ (ps : List GPart) (s : List Char),
    globMatch ps s = true → GlobSem ps s := by
  intro ps
  induction ps with
  | nil =>
    intro s h
    simp only [globMatch, List.isEmpty_iff] at h
    subst h
    exact GlobSem.nil
  | cons p ps ih =>
    cases p with
    | lit c =>
      intro s h
      cases s with
      | nil => simp [globMatch] at h
      | cons d s' =>
        simp only [globMatch, Bool.and_eq_true, beq_iff_eq] at h
        obtain ⟨h1, h2⟩ := h
        subst h1
        exact GlobSem.lit c (ih s' h2)
    | star =>
      intro s h
      simp only [globMatch, List.any_eq_true] at h
      obtain ⟨t, ht, hm⟩ := h
      obtain ⟨w, hw⟩ := (List.mem_tails t s).mp ht
      rw [← hw]
      exact GlobSem.star w (ih t hm)

theorem globMatch_complete : ∀ {ps : List GPart} {s : List Char},
    GlobSem ps s → globMatch ps s = true := by
  intro ps s h
  induction h with
  | nil => rfl
  | lit c _ ih => simp [globMatch, ih]
  | star w _ ih =>
    simp only [globMatch, List.any_eq_true]
    exact ⟨_, (List.mem_tails _ _).mpr ⟨w, rfl⟩, ih⟩

theorem globMatch_iff (ps : List GPart) (s : List Char) :
    globMatch ps s = true ↔ GlobSem ps s :=
  ⟨globMatch_sound ps s, globMatch_complete⟩

/-- C3: `isMatch` is a pure function of its two arguments; a rule
containing the wildcard marker matches exactly the paths consuming it as
“literals interleaved with any characters”, anchored at both ends; a rule
without a wildcard requires string equality; an empty rule or empty path
never matches.  The wildcard is anchored: `/user/*` matches `/user/123`
and not `/user`. -/
theorem C3_isMatch_spec (step : OnboardingStep) (path : String) :
    (isMatch step path = true ↔
      step.urlMatch ≠ "" ∧ path ≠ "" ∧
      ((step.urlMatch.toList.contains '*' = true ∧
          GlobSem (compileGlob step.urlMatch) path.toList) ∨
       (step.urlMatch.toList.contains '*' = false ∧ path = step.urlMatch))) ∧
    isMatch stepWild "/user/123" = true ∧ isMatch stepWild "/user" = false := by
  refine ⟨?_, by decide, by decide⟩
  unfold isMatch
  split
  · next hemp =>
    simp only [Bool.false_eq_true, false_iff]
    intro ⟨h1, h2, _⟩
    rcases hemp with h | h <;> [exact h1 h; exact h2 h]
  · next hemp =>
    push_neg at hemp
    obtain ⟨h1, h2⟩ := hemp
    split
    · next hwild =>
      rw [globMatch_iff]
      constructor
      · intro h; exact ⟨h1, h2, Or.inl ⟨hwild, h⟩⟩
      · rintro ⟨-, -, ⟨-, h⟩ | ⟨hc, -⟩⟩
        · exact h
        · rw [hwild] at hc; cases hc
    · next hwild =>
      have hw : step.urlMatch.toList.contains '*' = false := by
        simpa using hwild
      simp only [beq_iff_eq]
      constructor
      · intro h; exact ⟨h1, h2, Or.inr ⟨hw, h⟩⟩
      · rintro ⟨-, -, ⟨hc, -⟩ | ⟨-, h⟩⟩
        · rw [hw] at hc; cases hc
        · exact h

/-! ## C2: out-of-range goTo -/

/-- C2: the claim says an out-of-range `goToStep` is a guarded no-op; the
code instead reads `nextStepObj.navigate` (or `.subSteps`) off the
`undefined` step object and throws, modelled by `none`. -/
theorem C2_goToStep_oob_faults (cfg : OnboardingConfig) (s : OnboardingState)
    (i : Int) (j : Option Int) (h : i < 0 ∨ (cfg.steps.length : Int) ≤ i) :
    goToStep cfg s i j = none := by
  have hg : jsGet cfg.steps i = none := jsGet_none_of_oob h
  cases j <;> simp [goToStep, hg]

theorem C2_goToStep_oob_faults_witness :
    ((1 : Int) < 0 ∨ (cfgTwoSubs.steps.length : Int) ≤ 1) ∧
    goToStep cfgTwoSubs initialState 1 none = none :=
  ⟨by decide, C2_goToStep_oob_faults cfgTwoSubs initialState 1 none (by decide)⟩

/-! ## C6: navigation precedence of goTo -/

/-- C6 counterexample: both the target step and its sub-step declare
navigate URLs; the jump navigates to the STEP's URL `/a`, not the
sub-step's `/b` as the claim asserts. -/
theorem C6_counterexample :
    (goToStep cfgNav initialState 0 (some 0)).map StepResult.nav = some (some "/a") ∧
    stepNavA.navigate = some "/a" ∧ ssNavB.navigate = some "/b" :=
  ⟨by decide, rfl, rfl⟩

/-- C6 amended: for an in-range jump into an existing sub-step, exactly
one navigation is requested and the STEP's navigate URL takes precedence;
the sub-step's own navigate URL is used only when the step declares
none. -/
theorem C6_amended_goToStep_nav (cfg : OnboardingConfig) (s : OnboardingState)
    (i jj : Int) (st : OnboardingStep) (subs : List OnboardingSubStep) (ss : OnboardingSubStep)
    (hst : jsGet cfg.steps i = some st)
    (hsubs : st.subSteps = some subs)
    (hss : jsGet subs jj = some ss) :
    goToStep cfg s i (some jj) =
      some ⟨{ s with
                currentStepIndex := i
                currentSubStepIndex := some jj
                isActive := true
                subStepProgress := progSet s.subStepProgress i (some jj) },
            emitNav (jsOr st.navigate ss.navigate), 0, TransKind.stay⟩ ∧
    (jsTruthy st.navigate = true → emitNav (jsOr st.navigate ss.navigate) = st.navigate) ∧
    (jsTruthy st.navigate = false → emitNav (jsOr st.navigate ss.navigate) = emitNav ss.navigate) := by
  refine ⟨?_, ?_, ?_⟩
  · simp [goToStep, hst, hsubs, hss]
  · intro h; simp [emitNav, jsOr, h]
  · intro h; simp [emitNav, jsOr, h]

theorem C6_amended_goToStep_nav_witness :
    goToStep cfgNav initialState 0 (some 0) =
      some ⟨{ initialState with
                currentStepIndex := 0
                currentSubStepIndex := some 0
                isActive := true
                subStepProgress := progSet initialState.subStepProgress 0 (some 0) },
            emitNav (jsOr stepNavA.navigate ssNavB.navigate), 0, TransKind.stay⟩ :=
  (C6_amended_goToStep_nav cfgNav initialState 0 0 stepNavA [ssNavB] ssNavB
    (by decide) rfl (by decide)).1

/-! ## C4: the terminal transition of nextStep -/

theorem nextStep_eq_completeStep (cfg : OnboardingConfig) (s : OnboardingState)
    (stepObj : OnboardingStep) (active : ActiveElem)
    (hst : jsGet cfg.steps s.currentStepIndex = some stepObj)
    (hae : activeElem stepObj s = some active)
    (hcond : subAdvanceCond stepObj s = false) :
    nextStep cfg s = completeStep cfg s stepObj active := by
  cases hsub : stepObj.subSteps with
  | none => simp only [nextStep, hst, hae, hsub]
  | some subs =>
    have hc : s.currentSubStepIndex.elim true
        (fun k => decide (k < (subs.length : Int) - 1)) = false := by
      simpa only [subAdvanceCond, hsub] using hcond
    simp only [nextStep, hst, hae, hsub, hc, Bool.false_eq_true, if_false]

theorem completeStep_terminal (cfg : OnboardingConfig) (s : OnboardingState)
    (stepObj : OnboardingStep) (active : ActiveElem)
    (hlast : ¬ s.currentStepIndex < (cfg.steps.length : Int) - 1) :
    completeStep cfg s stepObj active =
      some ⟨{ s with
                isActive := false
                completedSteps := addCompleted s.completedSteps s.currentStepIndex
                subStepProgress := progSet s.subStepProgress s.currentStepIndex s.currentSubStepIndex },
            emitNav (jsOr active.navigate stepObj.navigate),
            (if cfg.onOnboardingComplete then 1 else 0), TransKind.terminal⟩ := by
  simp [completeStep, hlast]

theorem mem_addCompleted_self (l : List Int) (i : Int) : i ∈ addCompleted l i := by
  unfold addCompleted
  split
  · next h => exact List.elem_iff.mp h
  · simp

/-- C4 amended: a `nextStep` on the last step with no further sub-step to
enter deactivates the flow, completes the step (idempotently), invokes
the completion callback exactly once (when one is supplied), and requests
at most one navigation — to the just-finished active element's navigate
URL, falling back to the just-finished STEP's navigate URL when the
active sub-step declares none. -/
theorem C4_terminal (cfg : OnboardingConfig) (s : OnboardingState)
    (stepObj : OnboardingStep) (active : ActiveElem)
    (hst : jsGet cfg.steps s.currentStepIndex = some stepObj)
    (hae : activeElem stepObj s = some active)
    (hcond : subAdvanceCond stepObj s = false)
    (hlast : s.currentStepIndex = (cfg.steps.length : Int) - 1) :
    ∃ r, nextStep cfg s = some r ∧
      r.state.isActive = false ∧
      r.state.completedSteps = addCompleted s.completedSteps s.currentStepIndex ∧
      s.currentStepIndex ∈ r.state.completedSteps ∧
      r.completions = (if cfg.onOnboardingComplete then 1 else 0) ∧
      r.nav = emitNav (jsOr active.navigate stepObj.navigate) ∧
      r.kind = TransKind.terminal := by
  rw [nextStep_eq_completeStep cfg s stepObj active hst hae hcond,
    completeStep_terminal cfg s stepObj active (by omega)]
  exact ⟨_, rfl, rfl, rfl, mem_addCompleted_self _ _, rfl, rfl, rfl⟩

theorem C4_terminal_witness :
    (nextStep cfgOnePlain initialState).map (fun r => r.state.isActive) = some false := by
  obtain ⟨r, hr, hact, -⟩ :=
    C4_terminal cfgOnePlain initialState stepPlain0 stepPlain0.asActive
      (by decide) (by decide) (by decide) (by decide)
  rw [hr]
  simpa using hact

/-- C4 counterexample: on the terminal transition out of a sub-step that
declares no navigate URL, the code navigates to `/end`, a URL declared on
the step, not on the just-finished active element (the sub-step). -/
theorem C4_counterexample :
    (nextStep cfgEnd stateAtSub0).map StepResult.nav = some (some "/end") ∧
    ssA.navigate = none ∧ stepEnd.navigate = some "/end" ∧
    (nextStep cfgEnd stateAtSub0).map (fun r => r.state.isActive) = some false :=
  ⟨by decide, rfl, rfl, by decide⟩

/-! ## C10: completedSteps is monotone and duplicate-free -/

theorem addCompleted_cases (l : List Int) (i : Int) :
    (addCompleted l i = l ∧ i ∈ l) ∨ (addCompleted l i = l ++ [i] ∧ i ∉ l) := by
  unfold addCompleted
  split
  · next h => exact Or.inl ⟨rfl, List.elem_iff.mp h⟩
  · next h => exact Or.inr ⟨rfl, fun hm => h (List.elem_iff.mpr hm)⟩

theorem nextStepSub_state {s : OnboardingState} {stepObj : OnboardingStep}
    {active : ActiveElem} {subs : List OnboardingSubStep} {r : StepResult}
    (h : nextStepSub s stepObj active subs = some r) :
    r.state.completedSteps = s.completedSteps ∧ r.state.isActive = s.isActive := by
  simp only [nextStepSub] at h
  split at h
  · cases h
  · injection h with h
    subst h
    exact ⟨rfl, rfl⟩

theorem completeStep_completed {cfg : OnboardingConfig} {s : OnboardingState}
    {stepObj : OnboardingStep} {active : ActiveElem} {r : StepResult}
    (h : completeStep cfg s stepObj active = some r) :
    r.state.completedSteps = addCompleted s.completedSteps s.currentStepIndex := by
  simp only [completeStep] at h
  split at h
  · split at h
    · cases h
    · split at h
      · cases h
      · injection h with h
        subst h
        rfl
  · injection h with h
    subst h
    rfl

theorem nextStep_completed {cfg : OnboardingConfig} {s : OnboardingState} {r : StepResult}
    (h : nextStep cfg s = some r) :
    r.state.completedSteps = s.completedSteps ∨
    (r.state.completedSteps = s.completedSteps ++ [s.currentStepIndex] ∧
      s.currentStepIndex ∉ s.completedSteps) := by
  unfold nextStep at h
  split at h
  · injection h with h
    subst h
    exact Or.inl rfl
  · split at h
    · cases h
    · have key : r.state.completedSteps = addCompleted s.completedSteps s.currentStepIndex →
          r.state.completedSteps = s.completedSteps ∨
          (r.state.completedSteps = s.completedSteps ++ [s.currentStepIndex] ∧
            s.currentStepIndex ∉ s.completedSteps) := by
        intro hac
        rcases addCompleted_cases s.completedSteps s.currentStepIndex with ⟨he, _⟩ | ⟨he, hm⟩
        · exact Or.inl (by rw [hac, he])
        · exact Or.inr ⟨by rw [hac, he], hm⟩
      split at h
      · split at h
        · exact Or.inl (nextStepSub_state h).1
        · exact key (completeStep_completed h)
      · exact key (completeStep_completed h)

theorem prevStepSub_state {cfg : OnboardingConfig} {s : OnboardingState} {k : Int}
    {r : StepResult} (h : prevStepSub cfg s k = some r) :
    r.state.completedSteps = s.completedSteps := by
  simp only [prevStepSub] at h
  split at h
  · cases h
  · split at h
    · cases h
    · split at h
      · cases h
      · injection h with h
        subst h
        rfl

theorem prevStepExit_state {cfg : OnboardingConfig} {s : OnboardingState}
    {r : StepResult} (h : prevStepExit cfg s = some r) :
    r.state.completedSteps = s.completedSteps := by
  simp only [prevStepExit] at h
  split at h
  · cases h
  · injection h with h
    subst h
    rfl

theorem prevStepCross_state {cfg : OnboardingConfig} {s : OnboardingState}
    {r : StepResult} (h : prevStepCross cfg s = some r) :
    r.state.completedSteps = s.completedSteps := by
  simp only [prevStepCross] at h
  split at h
  · cases h
  · injection h with h
    subst h
    rfl

theorem prevStep_completed {cfg : OnboardingConfig} {s : OnboardingState} {r : StepResult}
    (h : prevStep cfg s = some r) :
    r.state.completedSteps = s.completedSteps := by
  unfold prevStep at h
  split at h
  · split at h
    · exact prevStepSub_state h
    · split at h
      · exact prevStepExit_state h
      · split at h
        · exact prevStepCross_state h
        · injection h with h
          subst h
          rfl
  · split at h
    · exact prevStepCross_state h
    · injection h with h
      subst h
      rfl

theorem goToStep_completed {cfg : OnboardingConfig} {s : OnboardingState}
    {i : Int} {j : Option Int} {r : StepResult} (h : goToStep cfg s i j = some r) :
    r.state.completedSteps = s.completedSteps := by
  simp only [goToStep] at h
  split at h
  · cases h
  · split at h
    · cases h
    · injection h with h
      subst h
      rfl

theorem reconcile_completed (cfg : OnboardingConfig) (path : String) (s : OnboardingState) :
    (reconcile cfg path s).1.completedSteps = s.completedSteps := by
  unfold reconcile
  split
  · rfl
  · split
    · split
      · split <;> rfl
      · rfl
    · split
      · split <;> rfl
      · rfl

/-- C10: every transition operation and every reconciliation step keeps
every index already in `completedSteps` in place and in order, removes
nothing, adds at most one new index (and only `nextStep` adds one), and
preserves freedom from duplicates. -/
theorem C10_completed_monotone (cfg : OnboardingConfig) (s : OnboardingState) :
    (∀ r, nextStep cfg s = some r →
       (r.state.completedSteps = s.completedSteps ∨
        (r.state.completedSteps = s.completedSteps ++ [s.currentStepIndex] ∧
          s.currentStepIndex ∉ s.completedSteps)) ∧
       (∀ x, x ∈ s.completedSteps → x ∈ r.state.completedSteps) ∧
       (s.completedSteps.Nodup → r.state.completedSteps.Nodup)) ∧
    (∀ r, prevStep cfg s = some r → r.state.completedSteps = s.completedSteps) ∧
    ((finish cfg s).state.completedSteps = s.completedSteps) ∧
    (∀ i j r, goToStep cfg s i j = some r → r.state.completedSteps = s.completedSteps) ∧
    (∀ path, (reconcile cfg path s).1.completedSteps = s.completedSteps) := by
  refine ⟨?_, ?_, rfl, ?_, ?_⟩
  · intro r h
    rcases nextStep_completed h with he | ⟨he, hm⟩
    · exact ⟨Or.inl he, fun x hx => by rw [he]; exact hx,
        fun hn => by rw [he]; exact hn⟩
    · refine ⟨Or.inr ⟨he, hm⟩, fun x hx => by rw [he]; exact List.mem_append_left _ hx, ?_⟩
      intro hn
      rw [he, List.nodup_append]
      exact ⟨hn, List.nodup_singleton _, fun a ha hb => hm (by
        rw [List.mem_singleton] at hb
        subst hb
        exact ha)⟩
  · intro r h
    exact prevStep_completed h
  · intro i j r h
    exact goToStep_completed h
  · intro path
    exact reconcile_completed cfg path s

theorem C10_completed_monotone_witness : rOnePlain.state.completedSteps.Nodup :=
  (((C10_completed_monotone cfgOnePlain initialState).1 rOnePlain (by decide)).2.2) (by decide)

/-! ## C7: free-order reconciliation -/

theorem findFreeAux_sound (path : String) (comp : List Int) :
    ∀ (l : List OnboardingStep) (i m : Int), findFreeAux path comp l i = some m →
      i ≤ m ∧
      (∃ st, l.get? (m - i).toNat = some st ∧ isMatch st path = true) ∧
      ¬ m ∈ comp ∧
      ∀ j : Int, i ≤ j → j < m → ∀ st, l.get? (j - i).toNat = some st →
        isMatch st path = false ∨ j ∈ comp := by
  intro l
  induction l with
  | nil =>
    intro i m h
    simp [findFreeAux] at h
  | cons st0 rest ih =>
    intro i m h
    simp only [findFreeAux] at h
    split at h
    · next hcond =>
      injection h with h
      subst h
      obtain ⟨hm, hnc⟩ := hcond
      refine ⟨le_refl _, ⟨st0, by simp, hm⟩, ?_, ?_⟩
      · intro hmem
        exact hnc (List.elem_iff.mpr hmem)
      · intro j h1 h2 st' _
        exact absurd h2 (not_lt.mpr h1)
    · next hcond =>
      obtain ⟨hle, ⟨st', hget, hm'⟩, hnm, hmin⟩ := ih (i + 1) m h
      refine ⟨by omega, ⟨st', ?_, hm'⟩, hnm, ?_⟩
      · have h1 : (m - i).toNat = (m - (i + 1)).toNat + 1 := by omega
        rw [h1]
        simpa using hget
      · intro j h1 h2 st'' hg
        rcases eq_or_lt_of_le h1 with heq | hlt
        · subst heq
          have hst : st'' = st0 := by
            have hz : (i - i).toNat = 0 := by omega
            rw [hz] at hg
            exact (by simpa using hg : st0 = st'').symm
          subst hst
          by_cases hmatch : isMatch st'' path = true
          · right
            by_contra hnotmem
            exact hcond ⟨hmatch, fun hc => hnotmem (List.elem_iff.mp hc)⟩
          · left
            simpa using hmatch
        · have h3 : (j - i).toNat = (j - (i + 1)).toNat + 1 := by omega
          rw [h3] at hg
          exact hmin j (by omega) h2 st'' (by simpa using hg)

theorem findFreeAux_none (path : String) (comp : List Int) :
    ∀ (l : List OnboardingStep) (i : Int), findFreeAux path comp l i = none →
      ∀ (n : Nat) (st : OnboardingStep), l.get? n = some st →
        isMatch st path = false ∨ (i + n) ∈ comp := by
  intro l
  induction l with
  | nil =>
    intro i _ n st hget
    simp at hget
  | cons st0 rest ih =>
    intro i h n st hget
    simp only [findFreeAux] at h
    split at h
    · cases h
    · next hcond =>
      cases n with
      | zero =>
        have hst : st = st0 := (by simpa using hget : st0 = st).symm
        subst hst
        by_cases hm : isMatch st path = true
        · right
          have hmem : i ∈ comp := by
            by_contra hmem
            exact hcond ⟨hm, fun hc => hmem (List.elem_iff.mp hc)⟩
          simpa using hmem
        · left
          simpa using hm
      | succ n' =>
        rcases ih (i + 1) h n' st (by simpa using hget) with hf | hmem
        · exact Or.inl hf
        · right
          have he : i + 1 + (n' : Int) = i + ((n' : Int) + 1) := by omega
          rw [he] at hmem
          simpa using hmem

theorem findFreeAux_target {cfg : OnboardingConfig} {path : String}
    {comp : List Int} {m : Int}
    (h : findFreeAux path comp cfg.steps 0 = some m) :
    FreeTarget cfg path comp m := by
  obtain ⟨hle, ⟨st, hget, hm⟩, hnm, hmin⟩ := findFreeAux_sound path comp cfg.steps 0 m h
  refine ⟨hle, ⟨st, ?_, hm⟩, hnm, ?_⟩
  · unfold jsGet
    rw [if_pos hle]
    simpa using hget
  · intro j h0 hj st' hg
    apply hmin j h0 hj st'
    unfold jsGet at hg
    rw [if_pos h0] at hg
    simpa using hg

theorem findFreeAux_of_target (cfg : OnboardingConfig) (path : String)
    (comp : List Int) (m : Int) (ht : FreeTarget cfg path comp m) :
    findFreeAux path comp cfg.steps 0 = some m := by
  obtain ⟨hm0, ⟨st, hget, hmatch⟩, hnm, hmin⟩ := ht
  have hget' : cfg.steps.get? m.toNat = some st := by
    unfold jsGet at hget
    rw [if_pos hm0] at hget
    exact hget
  cases hf : findFreeAux path comp cfg.steps 0 with
  | none =>
    exfalso
    rcases findFreeAux_none path comp cfg.steps 0 hf m.toNat st hget' with h | h
    · rw [hmatch] at h
      cases h
    · apply hnm
      have he : (0 : Int) + (m.toNat : Int) = m := by omega
      rwa [he] at h
  | some m' =>
    obtain ⟨hle, ⟨st', hget2, hmatch'⟩, hnm', hmin'⟩ :=
      findFreeAux_sound path comp cfg.steps 0 m' hf
    rcases lt_trichotomy m m' with hlt | heq | hgt
    · exfalso
      rcases hmin' m hm0 hlt st (by simpa using hget') with h | h
      · rw [hmatch] at h
        cases h
      · exact hnm h
    · rw [heq]
    · exfalso
      have hj : jsGet cfg.steps m' = some st' := by
        unfold jsGet
        rw [if_pos hle]
        simpa using hget2
      rcases hmin m' hle hgt st' hj with h | h
      · rw [hmatch'] at h
        cases h
      · exact hnm' h

/-- C7: in free-order mode, a reconciliation step in an active state
switches to the lowest-indexed non-completed step matching the path
(restoring its recorded resume sub-step, null when none), is a no-op when
that step is already current, leaves the state entirely unchanged when no
non-completed step matches, and never deactivates the flow; free-order
reconciliation requests no navigation. -/
theorem C7_free_reconcile (cfg : OnboardingConfig) (path : String) (s : OnboardingState)
    (hfree : cfg.metadata.inOrder = some false) (hact : s.isActive = true) :
    (∀ m, FreeTarget cfg path s.completedSteps m →
       (m ≠ s.currentStepIndex →
          reconcile cfg path s =
            ({ s with
                 currentStepIndex := m
                 currentSubStepIndex := progGet s.subStepProgress m }, none)) ∧
       (m = s.currentStepIndex → reconcile cfg path s = (s, none))) ∧
    ((∀ m, ¬ FreeTarget cfg path s.completedSteps m) → reconcile cfg path s = (s, none)) ∧
    (reconcile cfg path s).1.isActive = true ∧
    (reconcile cfg path s).2 = none := by
  refine ⟨?_, ?_, ?_, ?_⟩
  · intro m hm
    have hf := findFreeAux_of_target cfg path s.completedSteps m hm
    constructor
    · intro hne
      simp [reconcile, hact, hfree, hf, hne]
    · intro heq
      simp [reconcile, hact, hfree, hf, heq]
  · intro hno
    cases hf : findFreeAux path s.completedSteps cfg.steps 0 with
    | none => simp [reconcile, hact, hfree, hf]
    | some m => exact absurd (findFreeAux_target hf) (hno m)
  · cases hf : findFreeAux path s.completedSteps cfg.steps 0 with
    | none => simp [reconcile, hact, hfree, hf]
    | some m =>
      by_cases hne : m = s.currentStepIndex <;>
        simp [reconcile, hact, hfree, hf, hne]
  · cases hf : findFreeAux path s.completedSteps cfg.steps 0 with
    | none => simp [reconcile, hact, hfree, hf]
    | some m =>
      by_cases hne : m = s.currentStepIndex <;>
        simp [reconcile, hact, hfree, hf, hne]

theorem C7_free_reconcile_witness :
    reconcile cfgFree "/y" initialState =
      ({ initialState with
           currentStepIndex := 1
           currentSubStepIndex := progGet initialState.subStepProgress 1 }, none) := by
  have ht : FreeTarget cfgFree "/y" initialState.completedSteps 1 := by
    refine ⟨by omega, ⟨stepY, by decide, by decide⟩, by decide, ?_⟩
    intro j h0 hj st hst
    have hj0 : j = 0 := by omega
    subst hj0
    have hx : st = stepX := by
      have h0' : jsGet cfgFree.steps 0 = some stepX := by decide
      rw [h0'] at hst
      exact (Option.some.inj hst).symm
    subst hx
    exact Or.inl (by decide)
  exact ((C7_free_reconcile cfgFree "/y" initialState rfl rfl).1 1 ht).1 (by decide)

/-! ## C9: click-replay deduplication and internal-action suppression -/

theorem setInternalFlag_path (r : SimRefs) (inp : EffInput) :
    (setInternalFlag r inp).lastPathForSimulation = r.lastPathForSimulation := by
  unfold setInternalFlag
  split <;> rfl

theorem setInternalFlag_key (r : SimRefs) (inp : EffInput) :
    (setInternalFlag r inp).lastSimulatedKey = r.lastSimulatedKey := by
  unfold setInternalFlag
  split <;> rfl

theorem resetEffect_path (r : SimRefs) (inp : EffInput) :
    (resetEffect r inp).lastPathForSimulation = inp.path := by
  unfold resetEffect
  split
  · rfl
  · next h => exact (not_ne_iff.mp h).symm

theorem resetEffect_internal (r : SimRefs) (inp : EffInput) :
    (resetEffect r inp).wasInternalAction = r.wasInternalAction := by
  unfold resetEffect
  split <;> rfl

theorem clickEffect_no_replay_of_internal (cfg : OnboardingConfig) (r : SimRefs)
    (inp : EffInput) (hpath : r.lastPathForSimulation = inp.path)
    (hint : r.wasInternalAction = true) :
    (clickEffect cfg r inp).2 = false := by
  unfold clickEffect
  split
  · rfl
  · split
    · rfl
    · rw [if_pos ⟨hint, hpath.symm⟩]

theorem clickEffect_replay_refs (cfg : OnboardingConfig) (r : SimRefs) (inp : EffInput) :
    (clickEffect cfg r inp).2 = true →
    (clickEffect cfg r inp).1 =
      ⟨simKey inp, inp.path, false⟩ := by
  simp only [clickEffect]
  repeat' split
  all_goals simp

/-- C9: (1) a replay is never performed when the transition into the
current state was caused by an internal operation (the
`wasInternalAction` flag is set and the reset effect has already synced
`lastPathForSimulation` with the current path); (2) immediately after a
performed replay, a firing for the identical (path, stepIndex,
subStepIndex) combination performs no replay — the same combination is
never replayed twice in a row. -/
theorem C9_replay_dedup (cfg : OnboardingConfig) (r : SimRefs) (inp inp2 : EffInput) :
    ((inp.internalOp = true ∨ r.wasInternalAction = true) → (fireOnce cfg r inp).2 = false) ∧
    ((fireOnce cfg r inp).2 = true → inp2.path = inp.path → inp2.stepIdx = inp.stepIdx →
      inp2.subIdx = inp.subIdx → (fireOnce cfg (fireOnce cfg r inp).1 inp2).2 = false) := by
  constructor
  · intro hint
    unfold fireOnce
    apply clickEffect_no_replay_of_internal
    · exact resetEffect_path _ _
    · rw [resetEffect_internal]
      unfold setInternalFlag
      rcases hint with h | h
      · rw [if_pos h]
      · split
        · rfl
        · exact h
  · intro hrep hp hi hs
    have hkey : simKey inp2 = simKey inp := by
      unfold simKey
      rw [hp, hi, hs]
    have hrefs : (fireOnce cfg r inp).1 = ⟨simKey inp, inp.path, false⟩ := by
      unfold fireOnce at hrep ⊢
      exact clickEffect_replay_refs cfg _ inp hrep
    rw [hrefs]
    unfold fireOnce
    have hreset : resetEffect (setInternalFlag ⟨simKey inp, inp.path, false⟩ inp2) inp2 =
        setInternalFlag ⟨simKey inp, inp.path, false⟩ inp2 := by
      unfold resetEffect
      rw [if_neg]
      rw [setInternalFlag_path]
      simp [hp]
    rw [hreset]
    have hk : (setInternalFlag ⟨simKey inp, inp.path, false⟩ inp2).lastSimulatedKey =
        simKey inp2 := by
      rw [setInternalFlag_key, hkey]
    unfold clickEffect
    repeat' split
    all_goals simp_all

theorem C9_replay_dedup_witness :
    (fireOnce cfgClicky refs0 inpInt).2 = false ∧
    (fireOnce cfgClicky (fireOnce cfgClicky refs0 inpExt).1 inpExt).2 = false :=
  ⟨(C9_replay_dedup cfgClicky refs0 inpInt inpExt).1 (Or.inl rfl),
   (C9_replay_dedup cfgClicky refs0 inpExt inpExt).2 (by decide) rfl rfl rfl⟩

/-! ## C8: the collected replay actions -/

theorem collect_all (st : OnboardingStep) :
    collectStepClicks st (-1) = some (specCollectStep st none) := by
  unfold collectStepClicks specCollectStep
  cases h : st.subSteps with
  | none => simp [h]
  | some subs => simp [h]

theorem collect_nosubs (st : OnboardingStep) (t : Int) (h : st.subSteps = none) :
    collectStepClicks st t = some (specCollectStep st (some t)) := by
  simp [collectStepClicks, specCollectStep, h]

theorem collect_bounded (st : OnboardingStep) (subs : List OnboardingSubStep) (t : Int)
    (hsubs : st.subSteps = some subs) (h0 : 0 ≤ t) (hle : t ≤ (subs.length : Int)) :
    collectStepClicks st t = some (specCollectStep st (some t)) := by
  have hne : ¬ t = -1 := by omega
  simp [collectStepClicks, specCollectStep, hsubs, hne, hle]

theorem foldlM_append_eq (h : Nat → Option (List String)) (h' : Nat → List String) :
    ∀ (l : List Nat), (∀ n ∈ l, h n = some (h' n)) →
      ∀ acc, l.foldlM (fun acc n => (h n).map (fun x => acc ++ x)) acc =
        some (l.foldl (fun acc n => acc ++ h' n) acc) := by
  intro l
  induction l with
  | nil =>
    intro _ acc
    rfl
  | cons n l ih =>
    intro hall acc
    have hn := hall n (List.mem_cons_self n l)
    rw [List.foldlM_cons, List.foldl_cons, hn]
    simp only [Option.map_some', Option.some_bind]
    exact ih (fun m hm => hall m (List.mem_cons_of_mem _ hm)) (acc ++ h' n)

theorem simStepCollect_eq (cfg : OnboardingConfig) (path : String)
    (stepIndex : Int) (subStepIndex : Option Int)
    (hT : ∀ st, jsGet cfg.steps stepIndex = some st → isMatch st path = true →
          ∀ subs, st.subSteps = some subs → ∀ t, subStepIndex = some t →
          0 ≤ t ∧ t ≤ (subs.length : Int)) :
    ∀ n : Nat, (n : Int) ≤ stepIndex →
      simStepCollect cfg path stepIndex subStepIndex n =
        some (specStepCollect cfg path stepIndex subStepIndex n) := by
  intro n hn
  unfold simStepCollect specStepCollect
  cases hg : jsGet cfg.steps (n : Int) with
  | none => simp [hg]
  | some st =>
    simp only [hg]
    by_cases hm : isMatch st path = true
    · rw [if_pos hm, if_pos hm]
      by_cases hlt : (n : Int) < stepIndex
      · rw [if_pos hlt, if_pos hlt]
        exact collect_all st
      · rw [if_neg hlt, if_neg hlt]
        cases hs : subStepIndex with
        | none => rfl
        | some t =>
          cases hsub : st.subSteps with
          | none => exact collect_nosubs st t hsub
          | some subs =>
            have heq : (n : Int) = stepIndex := by omega
            obtain ⟨h0, hle⟩ := hT st (heq ▸ hg) hm subs hsub t hs
            exact collect_bounded st subs t hsub h0 hle
    · rw [if_neg hm, if_neg hm]

/-- C8 amended: when the Click Replay Scheduler fires for (stepIndex,
subStepIndex), and the target sub-step index (when non-null and the
matching target step has sub-steps) lies between 0 and the sub-step
count, the ordered action list is exactly the claim's collection: for
each matching step below the target its own flagged activation followed
by all flagged sub-step activations; for the target step with a non-null
sub-step index its own flagged activation followed by those of flagged
sub-steps strictly below that index (never the target's own); nothing
for the target step with a null sub-step index.  The chained
`performClick` callbacks attempt the list strictly in this order. -/
theorem C8_replay_actions (cfg : OnboardingConfig) (path : String)
    (stepIndex : Int) (subStepIndex : Option Int)
    (hT : ∀ st, jsGet cfg.steps stepIndex = some st → isMatch st path = true →
          ∀ subs, st.subSteps = some subs → ∀ t, subStepIndex = some t →
          0 ≤ t ∧ t ≤ (subs.length : Int)) :
    simulateClicksActions cfg path stepIndex subStepIndex =
      some (specCollect cfg path stepIndex subStepIndex) := by
  unfold simulateClicksActions specCollect
  apply foldlM_append_eq
  intro n hn
  apply simStepCollect_eq cfg path stepIndex subStepIndex hT
  have := List.mem_range.mp hn
  omega

/-- C8 counterexample: a fire for (0, 7) on a matching step with two
sub-steps faults (the loop reads `subSteps[2].click` off `undefined`)
instead of collecting the flagged activations below index 7 as claimed. -/
theorem C8_counterexample :
    simulateClicksActions cfgClicky "/k" 0 (some 7) = none ∧
    specCollect cfgClicky "/k" 0 (some 7) = ["k", "c0", "c1"] :=
  ⟨by decide, by decide⟩

theorem C8_replay_actions_witness :
    simulateClicksActions cfgClicky "/k" 0 (some 1) =
      some (specCollect cfgClicky "/k" 0 (some 1)) ∧
    specCollect cfgClicky "/k" 0 (some 1) = ["k", "c0"] := by
  refine ⟨?_, by decide⟩
  apply C8_replay_actions
  intro st hst hm subs hsubs t ht
  have h1 : st = stepClicky := by
    have h0 : jsGet cfgClicky.steps 0 = some stepClicky := by decide
    rw [h0] at hst
    exact (Option.some.inj hst).symm
  subst h1
  have h2 : subs = [ssC0, ssC1] := by
    have h0 : stepClicky.subSteps = some [ssC0, ssC1] := rfl
    rw [h0] at hsubs
    exact (Option.some.inj hsubs).symm
  subst h2
  have h3 : t = 1 := (Option.some.inj ht).symm
  subst h3
  exact ⟨by omega, by decide⟩

/-! ## C1: completed steps and forward traversal of sub-steps -/

theorem mem_addCompleted_iff (l : List Int) (i x : Int) :
    x ∈ addCompleted l i ↔ x ∈ l ∨ x = i := by
  unfold addCompleted
  split
  · next h =>
    constructor
    · exact Or.inl
    · rintro (hx | rfl)
      · exact hx
      · exact List.elem_iff.mp h
  · simp [List.mem_append]

theorem nodup_addCompleted (l : List Int) (i : Int) (h : l.Nodup) :
    (addCompleted l i).Nodup := by
  rcases addCompleted_cases l i with ⟨he, _⟩ | ⟨he, hm⟩
  · rw [he]
    exact h
  · rw [he, List.nodup_append]
    refine ⟨h, List.nodup_singleton _, ?_⟩
    intro a ha hb
    rw [List.mem_singleton] at hb
    subst hb
    exact hm ha

theorem nextStep_inv {cfg : OnboardingConfig} {s : OnboardingState} {r : StepResult}
    (h : nextStep cfg s = some r) :
    (jsGet cfg.steps s.currentStepIndex = none ∧ r = ⟨s, none, 0, TransKind.stay⟩) ∨
    (∃ stepObj active, jsGet cfg.steps s.currentStepIndex = some stepObj ∧
      activeElem stepObj s = some active ∧
      ((∃ subs, stepObj.subSteps = some subs ∧
         (s.currentSubStepIndex.elim true
           (fun k => decide (k < (subs.length : Int) - 1))) = true ∧
         nextStepSub s stepObj active subs = some r) ∨
       (subAdvanceCond stepObj s = false ∧ completeStep cfg s stepObj active = some r))) := by
  unfold nextStep at h
  split at h
  · next hg =>
    injection h with h
    subst h
    exact Or.inl ⟨hg, rfl⟩
  · next stepObj hg =>
    split at h
    · cases h
    · next active hae =>
      right
      refine ⟨stepObj, active, hg, hae, ?_⟩
      split at h
      · next subs hsub =>
        split at h
        · next hc => exact Or.inl ⟨subs, hsub, hc, h⟩
        · next hc =>
          refine Or.inr ⟨?_, h⟩
          simp only [subAdvanceCond, hsub]
          exact Bool.not_eq_true _ ▸ (by simpa using hc)
      · next hsub =>
        refine Or.inr ⟨?_, h⟩
        simp [subAdvanceCond, hsub]

theorem nextStepSub_inv {s : OnboardingState} {stepObj : OnboardingStep}
    {active : ActiveElem} {subs : List OnboardingSubStep} {r : StepResult}
    (h : nextStepSub s stepObj active subs = some r) :
    ∃ k : Int,
      (s.currentSubStepIndex = none ∧ k = 0 ∨
        ∃ j, s.currentSubStepIndex = some j ∧ k = j + 1) ∧
      r.state = { s with
                    currentSubStepIndex := some k
                    subStepProgress :=
                      progSet s.subStepProgress s.currentStepIndex (some k) } ∧
      r.kind = TransKind.subAdvance k := by
  simp only [nextStepSub] at h
  split at h
  · cases h
  · injection h with h
    subst h
    refine ⟨_, ?_, rfl, rfl⟩
    cases hs : s.currentSubStepIndex with
    | none => exact Or.inl ⟨rfl, rfl⟩
    | some j => exact Or.inr ⟨j, rfl, rfl⟩

theorem completeStep_inv {cfg : OnboardingConfig} {s : OnboardingState}
    {stepObj : OnboardingStep} {active : ActiveElem} {r : StepResult}
    (h : completeStep cfg s stepObj active = some r) :
    (s.currentStepIndex < (cfg.steps.length : Int) - 1 ∧
      r.state = { s with
                    currentStepIndex := s.currentStepIndex + 1
                    currentSubStepIndex := progGet s.subStepProgress (s.currentStepIndex + 1)
                    completedSteps := addCompleted s.completedSteps s.currentStepIndex
                    subStepProgress :=
                      progSet s.subStepProgress s.currentStepIndex s.currentSubStepIndex } ∧
      r.kind = TransKind.cross) ∨
    (¬ s.currentStepIndex < (cfg.steps.length : Int) - 1 ∧
      r.state = { s with
                    isActive := false
                    completedSteps := addCompleted s.completedSteps s.currentStepIndex
                    subStepProgress :=
                      progSet s.subStepProgress s.currentStepIndex s.currentSubStepIndex } ∧
      r.kind = TransKind.terminal) := by
  simp only [completeStep] at h
  split at h
  · next hlt =>
    split at h
    · cases h
    · split at h
      · cases h
      · injection h with h
        subst h
        exact Or.inl ⟨hlt, rfl, rfl⟩
  · next hlt =>
    injection h with h
    subst h
    exact Or.inr ⟨hlt, rfl, rfl⟩

theorem prevStepSub_inv {cfg : OnboardingConfig} {s : OnboardingState} {k : Int}
    {r : StepResult} (h : prevStepSub cfg s k = some r) :
    ∃ st, jsGet cfg.steps s.currentStepIndex = some st ∧
      r.state = { s with
                    currentSubStepIndex := some (k - 1)
                    subStepProgress :=
                      progSet s.subStepProgress s.currentStepIndex (some (k - 1)) } := by
  simp only [prevStepSub] at h
  split at h
  · cases h
  · next st hg =>
    split at h
    · cases h
    · split at h
      · cases h
      · injection h with h
        subst h
        exact ⟨st, hg, rfl⟩

theorem prevStepExit_inv {cfg : OnboardingConfig} {s : OnboardingState}
    {r : StepResult} (h : prevStepExit cfg s = some r) :
    ∃ st, jsGet cfg.steps s.currentStepIndex = some st ∧
      r.state = { s with
                    currentSubStepIndex := none
                    subStepProgress :=
                      progSet s.subStepProgress s.currentStepIndex none } := by
  simp only [prevStepExit] at h
  split at h
  · cases h
  · next st hg =>
    injection h with h
    subst h
    exact ⟨st, hg, rfl⟩

theorem prevStepCross_inv {cfg : OnboardingConfig} {s : OnboardingState}
    {r : StepResult} (h : prevStepCross cfg s = some r) :
    ∃ pso, jsGet cfg.steps (s.currentStepIndex - 1) = some pso ∧
      r.state = { s with
                    currentStepIndex := s.currentStepIndex - 1
                    currentSubStepIndex := prevResume s pso
                    isActive := true
                    subStepProgress :=
                      progSet s.subStepProgress (s.currentStepIndex - 1) (prevResume s pso) } := by
  simp only [prevStepCross] at h
  split at h
  · cases h
  · next pso hg =>
    injection h with h
    subst h
    exact ⟨pso, hg, rfl⟩

theorem C1Inv_next {cfg : OnboardingConfig} {s : OnboardingState}
    {log : List (Int × Int)} {r : StepResult}
    (hI : C1Inv cfg s log) (h : nextStep cfg s = some r) :
    C1Inv cfg r.state (traverseLog s r log) := by
  obtain ⟨hnd, hcomp, hpos, hprog, hbelow⟩ := hI
  rcases nextStep_inv h with ⟨hg, rfl⟩ | ⟨stepObj, active, hg, hae, hbr⟩
  · exact ⟨hnd, hcomp, hpos, hprog, hbelow⟩
  · rcases hbr with ⟨subs, hsub, hcond, hns⟩ | ⟨hcond, hcs⟩
    · obtain ⟨k, hk, hst, hkind⟩ := nextStepSub_inv hns
      have hlog : traverseLog s r log = (s.currentStepIndex, k) :: log := by
        unfold traverseLog
        rw [hkind]
      rw [hlog, hst]
      have hposk : ∀ m : Int, 0 ≤ m → m ≤ k →
          (s.currentStepIndex, m) ∈ (s.currentStepIndex, k) :: log := by
        rcases hk with ⟨hnone, rfl⟩ | ⟨j, hj, rfl⟩
        · intro m h0 hm
          have hm0 : m = 0 := by omega
          subst hm0
          exact List.mem_cons_self _ _
        · intro m h0 hm
          rcases eq_or_lt_of_le hm with heq | hlt
          · exact heq ▸ List.mem_cons_self _ _
          · exact List.mem_cons_of_mem _ (hpos j hj m h0 (by omega))
      refine ⟨hnd, ?_, ?_, ?_, ?_⟩
      · intro i hi st hst' subs' hsub' m h0 hm
        exact List.mem_cons_of_mem _ (hcomp i hi st hst' subs' hsub' m h0 hm)
      · intro k' hk'
        have hk'' : some k = some k' := hk'
        injection hk'' with hk''
        subst hk''
        intro m h0 hm
        exact hposk m h0 hm
      · intro i v hiv m h0 hm
        by_cases hieq : i = s.currentStepIndex
        · subst hieq
          rw [progGet_progSet_same] at hiv
          injection hiv with hiv
          subst hiv
          exact hposk m h0 hm
        · rw [progGet_progSet_ne _ _ _ _ hieq] at hiv
          exact List.mem_cons_of_mem _ (hprog i v hiv m h0 hm)
      · intro j h0 hj
        exact hbelow j h0 hj
    · have hcompadd : ∀ subs', stepObj.subSteps = some subs' →
          ∀ m : Int, 0 ≤ m → m < (subs'.length : Int) →
          (s.currentStepIndex, m) ∈ log := by
        intro subs' hsub' m h0 hm
        simp only [subAdvanceCond, hsub'] at hcond
        cases hs : s.currentSubStepIndex with
        | none =>
          rw [hs] at hcond
          simp at hcond
        | some j =>
          rw [hs] at hcond
          simp only [Option.elim] at hcond
          have hj : (subs'.length : Int) - 1 ≤ j := by
            have := of_decide_eq_false hcond
            omega
          exact hpos j hs m h0 (by omega)
      rcases completeStep_inv hcs with ⟨hlt, hst, hkind⟩ | ⟨hlt, hst, hkind⟩
      · have hlog : traverseLog s r log = log := by
          unfold traverseLog
          rw [hkind]
        rw [hlog, hst]
        refine ⟨nodup_addCompleted _ _ hnd, ?_, ?_, ?_, ?_⟩
        · intro i hi st hst' subs' hsub' m h0 hm
          have hi' : i ∈ addCompleted s.completedSteps s.currentStepIndex := hi
          rcases (mem_addCompleted_iff _ _ _).mp hi' with him | rfl
          · exact hcomp i him st hst' subs' hsub' m h0 hm
          · have hse : st = stepObj := by
              have hst'' : jsGet cfg.steps s.currentStepIndex = some st := hst'
              rw [hg] at hst''
              exact (Option.some.inj hst'').symm
            subst hse
            exact hcompadd subs' hsub' m h0 hm
        · intro k' hk'
          have hk'' : progGet s.subStepProgress (s.currentStepIndex + 1) = some k' := hk'
          intro m h0 hm
          exact hprog _ k' hk'' m h0 hm
        · intro i v hiv m h0 hm
          by_cases hieq : i = s.currentStepIndex
          · subst hieq
            rw [progGet_progSet_same] at hiv
            exact hpos v hiv m h0 hm
          · rw [progGet_progSet_ne _ _ _ _ hieq] at hiv
            exact hprog i v hiv m h0 hm
        · intro j h0 hj
          have hj' : j < s.currentStepIndex + 1 := hj
          rcases lt_or_eq_of_le (by omega : j ≤ s.currentStepIndex) with hlt' | heq
          · exact (mem_addCompleted_iff _ _ _).mpr (Or.inl (hbelow j h0 hlt'))
          · exact (mem_addCompleted_iff _ _ _).mpr (Or.inr heq)
      · have hlog : traverseLog s r log = log := by
          unfold traverseLog
          rw [hkind]
        rw [hlog, hst]
        refine ⟨nodup_addCompleted _ _ hnd, ?_, ?_, ?_, ?_⟩
        · intro i hi st hst' subs' hsub' m h0 hm
          have hi' : i ∈ addCompleted s.completedSteps s.currentStepIndex := hi
          rcases (mem_addCompleted_iff _ _ _).mp hi' with him | rfl
          · exact hcomp i him st hst' subs' hsub' m h0 hm
          · have hse : st = stepObj := by
              have hst'' : jsGet cfg.steps s.currentStepIndex = some st := hst'
              rw [hg] at hst''
              exact (Option.some.inj hst'').symm
            subst hse
            exact hcompadd subs' hsub' m h0 hm
        · intro k' hk'
          have hk'' : s.currentSubStepIndex = some k' := hk'
          exact hpos k' hk''
        · intro i v hiv m h0 hm
          by_cases hieq : i = s.currentStepIndex
          · subst hieq
            rw [progGet_progSet_same] at hiv
            exact hpos v hiv m h0 hm
          · rw [progGet_progSet_ne _ _ _ _ hieq] at hiv
            exact hprog i v hiv m h0 hm
        · intro j h0 hj
          have hj' : j < s.currentStepIndex := hj
          exact (mem_addCompleted_iff _ _ _).mpr (Or.inl (hbelow j h0 hj'))

theorem C1Inv_prevCross {cfg : OnboardingConfig} {s : OnboardingState}
    {log : List (Int × Int)} {r : StepResult}
    (hI : C1Inv cfg s log) (hidx : 0 < s.currentStepIndex)
    (h : prevStepCross cfg s = some r) : C1Inv cfg r.state log := by
  obtain ⟨hnd, hcomp, hpos, hprog, hbelow⟩ := hI
  obtain ⟨pso, hg, hst⟩ := prevStepCross_inv h
  rw [hst]
  have hres : ∀ k : Int, prevResume s pso = some k →
      ∀ m : Int, 0 ≤ m → m ≤ k → (s.currentStepIndex - 1, m) ∈ log := by
    intro k hk m h0 hm
    unfold prevResume at hk
    split at hk
    · next v hv =>
      injection hk with hk
      exact hprog _ v hv m h0 (by omega)
    · next hv =>
      split at hk
      · next subs hsubs =>
        injection hk with hk
        have hmem : (s.currentStepIndex - 1) ∈ s.completedSteps :=
          hbelow _ (by omega) (by omega)
        exact hcomp _ hmem pso hg subs hsubs m h0 (by omega)
      · cases hk
  refine ⟨hnd, hcomp, ?_, ?_, ?_⟩
  · intro k' hk'
    have hk'' : prevResume s pso = some k' := hk'
    exact hres k' hk''
  · intro i v hiv m h0 hm
    by_cases hieq : i = s.currentStepIndex - 1
    · subst hieq
      rw [progGet_progSet_same] at hiv
      exact hres v hiv m h0 hm
    · rw [progGet_progSet_ne _ _ _ _ hieq] at hiv
      exact hprog i v hiv m h0 hm
  · intro j h0 hj
    have hj' : j < s.currentStepIndex - 1 := hj
    exact hbelow j h0 (by omega)

theorem C1Inv_prev {cfg : OnboardingConfig} {s : OnboardingState}
    {log : List (Int × Int)} {r : StepResult}
    (hI : C1Inv cfg s log) (h : prevStep cfg s = some r) :
    C1Inv cfg r.state log := by
  obtain ⟨hnd, hcomp, hpos, hprog, hbelow⟩ := hI
  unfold prevStep at h
  split at h
  · next k hs =>
    split at h
    · next hk =>
      obtain ⟨st, hg, hst⟩ := prevStepSub_inv h
      rw [hst]
      refine ⟨hnd, hcomp, ?_, ?_, hbelow⟩
      · intro k' hk'
        have hk'' : some (k - 1) = some k' := hk'
        injection hk'' with hk''
        intro m h0 hm
        exact hpos k hs m h0 (by omega)
      · intro i v hiv m h0 hm
        by_cases hieq : i = s.currentStepIndex
        · subst hieq
          rw [progGet_progSet_same] at hiv
          injection hiv with hiv
          exact hpos k hs m h0 (by omega)
        · rw [progGet_progSet_ne _ _ _ _ hieq] at hiv
          exact hprog i v hiv m h0 hm
    · split at h
      · next hcond =>
        obtain ⟨st, hg, hst⟩ := prevStepExit_inv h
        rw [hst]
        refine ⟨hnd, hcomp, ?_, ?_, hbelow⟩
        · intro k' hk'
          have hk'' : (none : Option Int) = some k' := hk'
          cases hk''
        · intro i v hiv m h0 hm
          by_cases hieq : i = s.currentStepIndex
          · subst hieq
            rw [progGet_progSet_same] at hiv
            cases hiv
          · rw [progGet_progSet_ne _ _ _ _ hieq] at hiv
            exact hprog i v hiv m h0 hm
      · split at h
        · next hidx =>
          exact C1Inv_prevCross ⟨hnd, hcomp, hpos, hprog, hbelow⟩ hidx h
        · injection h with h
          subst h
          exact ⟨hnd, hcomp, hpos, hprog, hbelow⟩
  · next hs =>
    split at h
    · next hidx =>
      exact C1Inv_prevCross ⟨hnd, hcomp, hpos, hprog, hbelow⟩ hidx h
    · injection h with h
      subst h
      exact ⟨hnd, hcomp, hpos, hprog, hbelow⟩

theorem C1Inv_fin {cfg : OnboardingConfig} {s : OnboardingState}
    {log : List (Int × Int)} (hI : C1Inv cfg s log) :
    C1Inv cfg (finish cfg s).state log := hI

theorem findUnfinishedAux_min (comp : List Int) :
    ∀ (fuel start : Nat) (f : Int), findUnfinishedAux comp fuel start = some f →
      (start : Int) ≤ f ∧ ∀ j : Int, (start : Int) ≤ j → j < f → j ∈ comp := by
  intro fuel
  induction fuel with
  | zero =>
    intro start f h
    simp [findUnfinishedAux] at h
  | succ n ih =>
    intro start f h
    simp only [findUnfinishedAux] at h
    split at h
    · next hc =>
      obtain ⟨hle, hmin⟩ := ih (start + 1) f h
      have hle' : (start : Int) + 1 ≤ f := by push_cast at hle; omega
      refine ⟨by omega, ?_⟩
      intro j h1 h2
      rcases eq_or_lt_of_le h1 with heq | hlt
      · rw [← heq]
        exact List.elem_iff.mp hc
      · exact hmin j (by push_cast; omega) h2
    · injection h with h
      subst h
      exact ⟨le_refl _, fun j h1 h2 => absurd h2 (not_lt.mpr h1)⟩

theorem C1Inv_recon {cfg : OnboardingConfig} {s : OnboardingState}
    {log : List (Int × Int)} (path : String)
    (hord : cfg.metadata.inOrder ≠ some false) (hI : C1Inv cfg s log) :
    C1Inv cfg (reconcile cfg path s).1 log := by
  obtain ⟨hnd, hcomp, hpos, hprog, hbelow⟩ := hI
  simp only [reconcile, if_neg hord]
  split
  · exact ⟨hnd, hcomp, hpos, hprog, hbelow⟩
  · split
    · next f hf =>
      obtain ⟨-, hmin⟩ := findUnfinishedAux_min s.completedSteps cfg.steps.length 0 f hf
      show C1Inv cfg
        (if f ≠ s.currentStepIndex then
          { s with
              currentStepIndex := f
              currentSubStepIndex := progGet s.subStepProgress f }
         else s) log
      by_cases hne : f = s.currentStepIndex
      · rw [if_neg (not_not_intro hne)]
        exact ⟨hnd, hcomp, hpos, hprog, hbelow⟩
      · rw [if_pos hne]
        refine ⟨hnd, hcomp, ?_, hprog, ?_⟩
        · intro k' hk'
          have hk'' : progGet s.subStepProgress f = some k' := hk'
          exact hprog f k' hk''
        · intro j h0 hj
          have hj' : j < f := hj
          exact hmin j (by simpa using h0) hj'
    · exact ⟨hnd, hcomp, hpos, hprog, hbelow⟩

/-- C1 amended: in every state reachable from the initial state by
`nextStep`/`prevStep`/`finish` and strict-order reconciliation steps, a
step index is in `completedSteps` only if every sub-step of that step was
traversed forward via `nextStep` beforehand (the ghost log records each
forward sub-step entry), and `completedSteps` stays duplicate-free; the
restriction is necessary — `goToStep` (see the counterexample) can
position the flow on the last sub-step and complete the step without its
earlier sub-steps ever having been traversed. -/
theorem C1_completed_requires_traversal {cfg : OnboardingConfig}
    {s : OnboardingState} {log : List (Int × Int)}
    (h : ReachableNF cfg s log) : C1Inv cfg s log := by
  induction h with
  | init =>
    refine ⟨List.nodup_nil, ?_, ?_, ?_, ?_⟩
    · intro i hi
      exact absurd hi (List.not_mem_nil i)
    · intro k hk
      cases hk
    · intro i v hiv
      cases hiv
    · intro j h0 hj
      have hj' : j < (0 : Int) := hj
      omega
  | next hr hn ih => exact C1Inv_next ih hn
  | prev hr hn ih => exact C1Inv_prev ih hn
  | fin hr ih => exact C1Inv_fin ih
  | recon hord hr ih => exact C1Inv_recon _ hord ih

/-- C1 counterexample: from the initial state, `goToStep(0, 1)` followed
by `nextStep` puts step 0 into `completedSteps` although its sub-step 0
was never traversed forward via `nextStep` (the traversal log is empty). -/
theorem C1_counterexample :
    (runOps cfgTwoSubs (initialState, []) [Op.goTo 0 (some 1), Op.next]).map
        (fun g => g.1.completedSteps) = some [0] ∧
    (runOps cfgTwoSubs (initialState, []) [Op.goTo 0 (some 1), Op.next]).map
        (fun g => g.2) = some [] ∧
    (stepTwoSubs.subSteps.map List.length) = some 2 :=
  ⟨by decide, by decide, rfl⟩

theorem C1_completed_requires_traversal_witness :
    C1Inv cfgTwoSubs rTwoSubs0.state (traverseLog initialState rTwoSubs0 []) :=
  C1_completed_requires_traversal (ReachableNF.next ReachableNF.init (by decide))

/-! ## C5: the advance/retreat round-trip law -/

theorem prevStep_eq_sub {cfg : OnboardingConfig} {v : OnboardingState} {k : Int}
    (h : v.currentSubStepIndex = some k) (hk : 0 < k) :
    prevStep cfg v = prevStepSub cfg v k := by
  simp [prevStep, h, hk]

theorem prevStep_eq_exit {cfg : OnboardingConfig} {v : OnboardingState}
    (h : v.currentSubStepIndex = some 0) (hidx : 0 < v.currentStepIndex) :
    prevStep cfg v = prevStepExit cfg v := by
  simp [prevStep, h, hidx]

theorem prevStep_eq_cross {cfg : OnboardingConfig} {v : OnboardingState}
    (h : v.currentSubStepIndex = none) (hidx : 0 < v.currentStepIndex) :
    prevStep cfg v = prevStepCross cfg v := by
  simp [prevStep, h, hidx]

theorem prevStepSub_eval {cfg : OnboardingConfig} {v : OnboardingState} {k : Int}
    {st : OnboardingStep} {subs : List OnboardingSubStep} {nss : OnboardingSubStep}
    (hg : jsGet cfg.steps v.currentStepIndex = some st)
    (hsub : st.subSteps = some subs)
    (hss : jsGet subs (k - 1) = some nss) :
    prevStepSub cfg v k =
      some ⟨{ v with
                currentSubStepIndex := some (k - 1)
                subStepProgress :=
                  progSet v.subStepProgress v.currentStepIndex (some (k - 1)) },
            emitNav nss.navigate, 0, TransKind.stay⟩ := by
  simp [prevStepSub, hg, hsub, hss]

theorem prevStepExit_eval {cfg : OnboardingConfig} {v : OnboardingState}
    {st : OnboardingStep} (hg : jsGet cfg.steps v.currentStepIndex = some st) :
    prevStepExit cfg v =
      some ⟨{ v with
                currentSubStepIndex := none
                subStepProgress := progSet v.subStepProgress v.currentStepIndex none },
            emitNav st.navigate, 0, TransKind.stay⟩ := by
  simp [prevStepExit, hg]

theorem prevStepCross_eval {cfg : OnboardingConfig} {v : OnboardingState}
    {pso : OnboardingStep}
    (hg : jsGet cfg.steps (v.currentStepIndex - 1) = some pso) :
    prevStepCross cfg v =
      some ⟨{ v with
                currentStepIndex := v.currentStepIndex - 1
                currentSubStepIndex := prevResume v pso
                isActive := true
                subStepProgress :=
                  progSet v.subStepProgress (v.currentStepIndex - 1) (prevResume v pso) },
            emitNav (jsOr pso.navigate
              (match (match prevResume v pso, pso.subSteps with
                      | some t', some subs => jsGet subs t'
                      | _, _ => none) with
               | some ss => ss.navigate
               | none => none)),
            0, TransKind.stay⟩ := by
  simp [prevStepCross, hg]

theorem mirror_retreat {cfg : OnboardingConfig} {t : OnboardingState} {r : StepResult}
    {v : OnboardingState}
    (hn : nextStep cfg t = some r)
    (hkind : (∃ k, r.kind = TransKind.subAdvance k) ∨ r.kind = TransKind.cross)
    (hok : okAdvStep t r)
    (hsim : SimR v r.state) :
    ∃ r', prevStep cfg v = some r' ∧ SimR r'.state t := by
  obtain ⟨hvidx, hvsub, hvprog⟩ := hsim
  rcases nextStep_inv hn with ⟨hg, rfl⟩ | ⟨stepObj, active, hg, hae, hbr⟩
  · rcases hkind with ⟨k, hk⟩ | hk <;> exact TransKind.noConfusion hk
  · rcases hbr with ⟨subs, hsubs, hcnd, hns⟩ | ⟨hcond, hcs⟩
    · obtain ⟨k, hkcase, hst, hkd⟩ := nextStepSub_inv hns
      have hvidx' : v.currentStepIndex = t.currentStepIndex := by rw [hvidx, hst]
      have hvsub' : v.currentSubStepIndex = some k := by rw [hvsub, hst]
      have hvprog' : ∀ k' : Int, k' < v.currentStepIndex →
          progGet v.subStepProgress k' =
            progGet (progSet t.subStepProgress t.currentStepIndex (some k)) k' := by
        intro k' hk'
        rw [hvprog k' hk', hst]
      have hgv : jsGet cfg.steps v.currentStepIndex = some stepObj := by
        rw [hvidx']
        exact hg
      rcases hkcase with ⟨hts, hk0⟩ | ⟨j, htj, hkj⟩
      · subst hk0
        have hidx0 : 0 < t.currentStepIndex := hok.1 hkd
        have he := @prevStep_eq_exit cfg v hvsub' (by rw [hvidx']; exact hidx0)
        refine ⟨_, he.trans (prevStepExit_eval hgv), ⟨hvidx', ?_, ?_⟩⟩
        · show (none : Option Int) = t.currentSubStepIndex
          exact hts.symm
        · intro k' hk'
          have hk'' : k' < v.currentStepIndex := hk'
          show progGet (progSet v.subStepProgress v.currentStepIndex none) k' =
            progGet t.subStepProgress k'
          rw [progGet_progSet_ne _ _ _ _ (by omega), hvprog' k' hk'',
            progGet_progSet_ne _ _ _ _ (by omega)]
      · subst hkj
        have hjs : ∃ ss, jsGet subs j = some ss := by
          simp only [activeElem, htj, hsubs] at hae
          cases hjs' : jsGet subs j with
          | none =>
            rw [hjs'] at hae
            cases hae
          | some ss => exact ⟨ss, rfl⟩
        obtain ⟨ss, hjs⟩ := hjs
        have hj0 : 0 ≤ j := (jsGet_some_bounds hjs).1
        have hssv : jsGet subs (j + 1 - 1) = some ss := by simpa using hjs
        have he := @prevStep_eq_sub cfg v (j + 1) hvsub' (by omega)
        refine ⟨_, he.trans (prevStepSub_eval hgv hsubs hssv), ⟨hvidx', ?_, ?_⟩⟩
        · show some (j + 1 - 1) = t.currentSubStepIndex
          rw [htj]
          norm_num
        · intro k' hk'
          have hk'' : k' < v.currentStepIndex := hk'
          show progGet
              (progSet v.subStepProgress v.currentStepIndex (some (j + 1 - 1))) k' =
            progGet t.subStepProgress k'
          rw [progGet_progSet_ne _ _ _ _ (by omega), hvprog' k' hk'',
            progGet_progSet_ne _ _ _ _ (by omega)]
    · rcases completeStep_inv hcs with ⟨hlt, hst, hkd⟩ | ⟨hlt, hst, hkd⟩
      · have hvidx' : v.currentStepIndex = t.currentStepIndex + 1 := by rw [hvidx, hst]
        have hvsub0 : v.currentSubStepIndex = none := by
          rw [hvsub, hst]
          exact hok.2 hkd
        have hvprog' : ∀ k' : Int, k' < v.currentStepIndex →
            progGet v.subStepProgress k' =
              progGet (progSet t.subStepProgress t.currentStepIndex
                t.currentSubStepIndex) k' := by
          intro k' hk'
          rw [hvprog k' hk', hst]
        have hidx0 : 0 ≤ t.currentStepIndex := (jsGet_some_bounds hg).1
        have hgv : jsGet cfg.steps (v.currentStepIndex - 1) = some stepObj := by
          have : v.currentStepIndex - 1 = t.currentStepIndex := by omega
          rw [this]
          exact hg
        have he := @prevStep_eq_cross cfg v hvsub0 (by omega)
        have hres : prevResume v stepObj = t.currentSubStepIndex := by
          unfold prevResume
          have hpg : progGet v.subStepProgress (v.currentStepIndex - 1) =
              t.currentSubStepIndex := by
            rw [hvprog' _ (by omega)]
            have hidxeq : v.currentStepIndex - 1 = t.currentStepIndex := by omega
            rw [hidxeq, progGet_progSet_same]
          rw [hpg]
          cases hts : t.currentSubStepIndex with
          | some j => rfl
          | none =>
            cases hsubs2 : stepObj.subSteps with
            | none => rfl
            | some subs2 =>
              exfalso
              simp [subAdvanceCond, hsubs2, hts] at hcond
        refine ⟨_, he.trans (prevStepCross_eval hgv), ⟨?_, ?_, ?_⟩⟩
        · show v.currentStepIndex - 1 = t.currentStepIndex
          omega
        · show prevResume v stepObj = t.currentSubStepIndex
          exact hres
        · intro k' hk'
          have hk'' : k' < v.currentStepIndex - 1 := hk'
          show progGet (progSet v.subStepProgress (v.currentStepIndex - 1)
              (prevResume v stepObj)) k' = progGet t.subStepProgress k'
          rw [progGet_progSet_ne _ _ _ _ (by omega), hvprog' k' (by omega),
            progGet_progSet_ne _ _ _ _ (by omega)]
      · rcases hkind with ⟨k, hk⟩ | hk <;> rw [hkd] at hk <;> exact TransKind.noConfusion hk

theorem C5_round_trip {cfg : OnboardingConfig} {s : OnboardingState} {n : Nat}
    {t : OnboardingState} (h : Adv cfg s n t) :
    ∀ v, SimR v t → ∃ u, prevN cfg n v = some u ∧ posEq u s := by
  induction h with
  | refl =>
    intro v hv
    exact ⟨v, rfl, hv.1, hv.2.1⟩
  | step hadv hn hkind hok ih =>
    intro v hv
    obtain ⟨r', he, hsim'⟩ := mirror_retreat hn hkind hok hv
    obtain ⟨u, hu, hp⟩ := ih r'.state hsim'
    refine ⟨u, ?_, hp⟩
    unfold prevN
    rw [he]
    exact hu

/-- C5 amended: `n` successful `nextStep` calls that each actually
advance (sub-step entry or step cross, never the terminal transition)
followed by `n` `prevStep` calls return `currentStepIndex` and
`currentSubStepIndex` to their original values, provided no advance
enters the first sub-step at step 0 (where `prevStep`'s exit-to-parent
branch is unreachable) and every step crossed into has no recorded
resume sub-step at that moment. -/
theorem C5_advance_retreat (cfg : OnboardingConfig) (s t : OnboardingState) (n : Nat)
    (h : Adv cfg s n t) : ∃ u, prevN cfg n t = some u ∧ posEq u s :=
  C5_round_trip h t ⟨rfl, rfl, fun _ _ => rfl⟩

/-- C5 counterexample: one non-terminal `nextStep` from the initial state
(entering sub-step 0 of step 0) followed by one `prevStep` does NOT
return to (0, null): `prevStep` at (0, sub-step 0) is a no-op because its
exit-to-parent branch requires `currentStepIndex > 0`. -/
theorem C5_counterexample :
    nextStep cfgTwoSubs initialState = some rTwoSubs0 ∧
    rTwoSubs0.kind = TransKind.subAdvance 0 ∧
    (prevStep cfgTwoSubs rTwoSubs0.state).map
        (fun r => (r.state.currentStepIndex, r.state.currentSubStepIndex)) =
      some (0, some 0) ∧
    (initialState.currentStepIndex, initialState.currentSubStepIndex) =
      (0, (none : Option Int)) :=
  ⟨by decide, rfl, by decide, rfl⟩

theorem C5_advance_retreat_witness :
    (prevN cfgTwoPlain 1 rPlainCross.state).map
        (fun u => (u.currentStepIndex, u.currentSubStepIndex)) =
      some (initialState.currentStepIndex, initialState.currentSubStepIndex) := by
  obtain ⟨u, hu, hp⟩ :=
    C5_advance_retreat cfgTwoPlain initialState rPlainCross.state 1
      (Adv.step (Adv.refl initialState) (by decide) (Or.inr rfl)
        ⟨fun h => absurd h (by decide), fun _ => by decide⟩)
  rw [hu]
  simp only [Option.map_some']
  rw [hp.1, hp.2]
